import Mathlib

/-!
Shallow embedding of the task scheduler in `src/lib.rs` (crate `mo-assignment`).

Rust `HashMap`s are modelled as association lists (`List (String × α)`); the
list order stands for the map's iteration order (in Rust this order is fixed
for a given map instance while it is not mutated).  `u32`/`usize` values are
modelled as `Nat`, with the two wrap sites of `schedule_tasks` modelled
explicitly: the `usize` decrement `*degree -= 1` aborts with
`RustAbort.underflow` when the degree is zero (Rust's checked subtraction),
and the `u32` clock `time += task.duration` is reduced modulo `2 ^ 32`
(`u32Mod`), the release-build wrap-around of the addition.  `panic!` /
`unreachable!` are modelled as `Option`/`Except` error values.  The `while`
loop of `schedule_tasks` is given explicit fuel; exhausting the fuel is the
abort value `RustAbort.outOfFuel` (we prove it never happens for schedulers
built through the public API).
-/

set_option maxHeartbeats 1000000

namespace MoAssign

/-- Association-list lookup, mirroring `HashMap::get`: the first binding of
the key wins. -/
def alget {α : Type} : List (String × α) → String → Option α
  | [], _ => none
  | (k, v) :: rest, key => if k = key then some v else alget rest key

/-- Lookup with a default value. -/
def algetD {α : Type} (m : List (String × α)) (key : String) (d : α) : α :=
  (alget m key).getD d

/-- Association-list insert, mirroring `HashMap::insert` (or an assignment
through `get_mut`): overwrite the existing binding in place, otherwise add a
new binding. -/
def alinsert {α : Type} : List (String × α) → String → α → List (String × α)
  | [], key, v => [(key, v)]
  | (k, w) :: rest, key, v =>
    if k = key then (k, v) :: rest else (k, w) :: alinsert rest key v

/-- `map.entry(key).or_default().push(x)` on a `HashMap<String, Vec<String>>`. -/
def alpush : List (String × List String) → String → String → List (String × List String)
  | [], key, x => [(key, [x])]
  | (k, l) :: rest, key, x =>
    if k = key then (k, l ++ [x]) :: rest else (k, l) :: alpush rest key x

/-- The keys of an association list. -/
def keysOf {α : Type} (m : List (String × α)) : List String := m.map Prod.fst

/-- Number of occurrences of `a` in a list of names. -/
def cnt (a : String) : List String → Nat
  | [] => 0
  | b :: l => (if b = a then 1 else 0) + cnt a l

/-- Sum of all values of an in-degree table. -/
def sumDeg (m : List (String × Nat)) : Nat := (m.map (fun p => p.2)).sum

/-- Index of the first occurrence of `a` (length of the list if absent). -/
def idxOf (a : String) : List String → Nat
  | [] => 0
  | b :: l => if b = a then 0 else idxOf a l + 1

/-- `struct Task` of `src/lib.rs`. -/
structure Task where
  name : String
  dependencies : List String
  duration : Nat
deriving DecidableEq

/-- `enum ScheduleError` of `src/lib.rs`. -/
inductive ScheduleError where
  | NoTaskFound
  | CycleDetected
deriving DecidableEq

/-- Abnormal terminations of the Rust code: the checked-subtraction failure
of `*degree -= 1`, the `unreachable!()` arm of the final `match`, and
exhaustion of the fuel of the modelled `while` loop. -/
inductive RustAbort where
  | underflow
  | outOfFuel
  | unreachableHit
deriving DecidableEq

/-- The modulus of Rust's `u32`, the type of `time` and of task durations. -/
def u32Mod : Nat := 2 ^ 32

/-- `struct TaskScheduler` of `src/lib.rs`. -/
structure TaskScheduler where
  tasks : List (String × Task)
  first_level_dep : List (String × Nat)
  dependents : List (String × List String)
deriving DecidableEq

/-- `TaskScheduler::new`. -/
def TaskScheduler.new : TaskScheduler := ⟨[], [], []⟩

/-- `TaskScheduler::add_task`.  The `panic!("Task with the same name already
exists")` on a duplicate name is modelled as `none`. -/
def addTask (s : TaskScheduler) (name : String) (dependencies : List String)
    (duration : Nat) : Option TaskScheduler :=
  if (alget s.tasks name).isSome then
    none
  else
    some { tasks := alinsert s.tasks name ⟨name, dependencies, duration⟩,
           first_level_dep := alinsert s.first_level_dep name dependencies.length,
           dependents := dependencies.foldl (fun m d => alpush m d name) s.dependents }

/-- The inner `for neighbor in neighbors` loop of `schedule_tasks`: for each
neighbor currently tracked in `in_degree`, decrement its degree (aborting on
underflow, as Rust's checked unsigned subtraction would) and push it to the
back of the frontier when the degree reaches 0. -/
def processNeighbors : List String → List (String × Nat) → List String →
    Except RustAbort (List (String × Nat) × List String)
  | [], indeg, frontier => .ok (indeg, frontier)
  | n :: rest, indeg, frontier =>
    match alget indeg n with
    | none => processNeighbors rest indeg frontier
    | some 0 => .error .underflow
    | some (d + 1) =>
      processNeighbors rest (alinsert indeg n d)
        (if d = 0 then frontier ++ [n] else frontier)

/-- The `while let Some(task_name) = zero_in_degree.pop_front()` loop of
`schedule_tasks`, with explicit fuel.  `time += task.duration` is a `u32`
addition, so the clock advances modulo `u32Mod`. -/
def schedLoop (ts : List (String × Task)) (dps : List (String × List String)) :
    Nat → List String → List (String × Nat) → List (String × Nat × Nat) → Nat →
    Except RustAbort (List (String × Nat × Nat))
  | fuel, frontier, indeg, order, time =>
    match frontier with
    | [] => .ok order
    | taskName :: rest =>
      match fuel with
      | 0 => .error .outOfFuel
      | fuel' + 1 =>
        match alget ts taskName with
        | none => schedLoop ts dps fuel' rest indeg order time
        | some task =>
          match processNeighbors (algetD dps taskName []) indeg rest with
          | .error e => .error e
          | .ok (indeg', frontier') =>
            schedLoop ts dps fuel' frontier' indeg'
              (order ++ [(taskName, time, task.duration)])
              ((time + task.duration) % u32Mod)

/-- The initial frontier of `schedule_tasks`: every task whose in-degree is 0,
in the iteration order of the (cloned) in-degree table. -/
def seedFrontier (indeg : List (String × Nat)) : List String :=
  (indeg.filter (fun p => p.2 == 0)).map Prod.fst

/-- Fuel that we prove sufficient for the scheduling loop. -/
def scheduleFuel (s : TaskScheduler) : Nat :=
  (seedFrontier s.first_level_dep).length + sumDeg s.first_level_dep

/-- The scheduling loop of `schedule_tasks` run from its initial state. -/
def schedLoopTop (s : TaskScheduler) : Except RustAbort (List (String × Nat × Nat)) :=
  schedLoop s.tasks s.dependents (scheduleFuel s) (seedFrontier s.first_level_dep)
    s.first_level_dep [] 0

/-- `TaskScheduler::schedule_tasks`.  The outer `Except RustAbort` layer holds
the abnormal terminations; the inner result is the Rust return value. -/
def scheduleTasks (s : TaskScheduler) :
    Except RustAbort (Except ScheduleError (List (String × Nat × Nat))) :=
  match schedLoopTop s with
  | .error e => .error e
  | .ok order =>
    if order.length < s.tasks.length then .ok (.error ScheduleError.CycleDetected)
    else if order.length = s.tasks.length then .ok (.ok order)
    else .error RustAbort.unreachableHit

/-- The scheduling loop with the scheduler state threaded through every
iteration, exactly as the Rust loop repeatedly reads `self.tasks` and
`self.dependents` through the shared borrow; it returns the scheduler it
finished with. -/
def schedLoopSt (s : TaskScheduler) :
    Nat → List String → List (String × Nat) → List (String × Nat × Nat) → Nat →
    Except RustAbort (List (String × Nat × Nat)) × TaskScheduler
  | fuel, frontier, indeg, order, time =>
    match frontier with
    | [] => (.ok order, s)
    | taskName :: rest =>
      match fuel with
      | 0 => (.error .outOfFuel, s)
      | fuel' + 1 =>
        match alget s.tasks taskName with
        | none => schedLoopSt s fuel' rest indeg order time
        | some task =>
          match processNeighbors (algetD s.dependents taskName []) indeg rest with
          | .error e => (.error e, s)
          | .ok (indeg', frontier') =>
            schedLoopSt s fuel' frontier' indeg'
              (order ++ [(taskName, time, task.duration)])
              ((time + task.duration) % u32Mod)

/-- `schedule_tasks` as a state transformer: it receives the scheduler state
and returns it together with the result, making the absence of mutation of
the stored state an explicit proof obligation. -/
def scheduleTasksSt (s : TaskScheduler) :
    Except RustAbort (Except ScheduleError (List (String × Nat × Nat))) × TaskScheduler :=
  match schedLoopSt s (scheduleFuel s) (seedFrontier s.first_level_dep)
      s.first_level_dep [] 0 with
  | (.error e, s') => (.error e, s')
  | (.ok order, s') =>
    if order.length < s'.tasks.length then (.ok (.error ScheduleError.CycleDetected), s')
    else if order.length = s'.tasks.length then (.ok (.ok order), s')
    else (.error RustAbort.unreachableHit, s')

/-- Build a scheduler through the public API: `new()` followed by a sequence
of `add_task(name, dependencies, duration)` calls (`none` if any call
aborts on a duplicate name). -/
def buildScheduler (ops : List (String × List String × Nat)) : Option TaskScheduler :=
  ops.foldl (fun acc op => acc.bind fun s => addTask s op.1 op.2.1 op.2.2)
    (some TaskScheduler.new)

/-- A scheduler state produced by the public API. -/
def Reachable (s : TaskScheduler) : Prop :=
  ∃ ops, buildScheduler ops = some s

/-- The declared dependency list of a registered task (empty for an
unregistered name). -/
def depsOf (ts : List (String × Task)) (n : String) : List String :=
  match alget ts n with
  | some t => t.dependencies
  | none => []

/-- The duration of a registered task (0 for an unregistered name). -/
def durOf (ts : List (String × Task)) (n : String) : Nat :=
  match alget ts n with
  | some t => t.duration
  | none => 0

/-- Total number of dependency-list occurrences, among the names in `S`, of
dependencies of `T` — the number of in-degree decrements `T` has received
once exactly the tasks of `S` have been scheduled. -/
def Dsum (ts : List (String × Task)) (S : List String) (T : String) : Nat :=
  (S.map (fun P => cnt P (depsOf ts T))).sum

/-- The schedule entries start at `t0` and each entry starts where the
previous one finished (the single-timeline accumulation of the Rust loop). -/
def TimedFrom : Nat → List (String × Nat × Nat) → Prop
  | _, [] => True
  | t0, e :: rest => e.2.1 = t0 ∧ TimedFrom (t0 + e.2.2) rest

/-- Like `TimedFrom`, but the clock advances modulo `u32Mod`, exactly as the
`u32` addition `time += task.duration` does in a release build. -/
def TimedFromW : Nat → List (String × Nat × Nat) → Prop
  | _, [] => True
  | t0, e :: rest => e.2.1 = t0 ∧ TimedFromW ((t0 + e.2.2) % u32Mod) rest

/-- The registered dependency graph: `T` depends directly on `P`, and both
are registered tasks. -/
def DependsOn (s : TaskScheduler) (T P : String) : Prop :=
  T ∈ keysOf s.tasks ∧ P ∈ keysOf s.tasks ∧ P ∈ depsOf s.tasks T

/-- The registered dependency graph contains a cycle. -/
def HasCycle (s : TaskScheduler) : Prop :=
  ∃ T, Relation.TransGen (DependsOn s) T T

/-- The registered dependency graph is acyclic. -/
def Acyclic (s : TaskScheduler) : Prop :=
  ∀ T, ¬ Relation.TransGen (DependsOn s) T T

/-- Every declared dependency name of every registered task is itself a
registered task. -/
def NoDangling (s : TaskScheduler) : Prop :=
  ∀ T ∈ keysOf s.tasks, ∀ p ∈ depsOf s.tasks T, p ∈ keysOf s.tasks

instance exceptDecEq {ε α : Type} [DecidableEq ε] [DecidableEq α] :
    DecidableEq (Except ε α) := fun a b =>
  match a, b with
  | .error e1, .error e2 =>
    if h : e1 = e2 then .isTrue (by rw [h])
    else .isFalse (by intro hc; injection hc with hc; exact h hc)
  | .error _, .ok _ => .isFalse (by intro hc; exact Except.noConfusion hc)
  | .ok _, .error _ => .isFalse (by intro hc; exact Except.noConfusion hc)
  | .ok v1, .ok v2 =>
    if h : v1 = v2 then .isTrue (by rw [h])
    else .isFalse (by intro hc; injection hc with hc; exact h hc)

instance schedResultDecEq :
    DecidableEq (Except RustAbort (Except ScheduleError (List (String × Nat × Nat)))) :=
  exceptDecEq

instance (s : TaskScheduler) : Decidable (NoDangling s) := by
  unfold NoDangling
  infer_instance

/-- `a` is registered strictly before `b` in the operation sequence `ops`. -/
def regBefore (ops : List (String × List String × Nat)) (a b : String) : Prop :=
  idxOf a (ops.map (fun op => op.1)) < idxOf b (ops.map (fun op => op.1))

instance (ops : List (String × List String × Nat)) (a b : String) :
    Decidable (regBefore ops a b) := by
  unfold regBefore
  infer_instance

/-- The diamond scenario in the registration order of the repository's
`test_non_cylce` test. -/
def diamondOps : List (String × List String × Nat) :=
  [("D", ["B", "C"], 4), ("A", ([] : List String), 3), ("B", ["A"], 2), ("C", ["A"], 1)]

def diamondSched : TaskScheduler := (buildScheduler diamondOps).getD TaskScheduler.new

/-- The diamond scenario with C registered before B. -/
def diamondOpsCB : List (String × List String × Nat) :=
  [("D", ["B", "C"], 4), ("A", ([] : List String), 3), ("C", ["A"], 1), ("B", ["A"], 2)]

/-- The 3-cycle of the repository's `test_cycle_detection` test. -/
def cycleOps : List (String × List String × Nat) :=
  [("A", ["B"], 1), ("B", ["C"], 1), ("C", ["A"], 1)]

def cycleSched : TaskScheduler := (buildScheduler cycleOps).getD TaskScheduler.new

/-- A single task with a dependency name that is never registered. -/
def danglingOps : List (String × List String × Nat) := [("T", ["X"], 1)]

def danglingSched : TaskScheduler := (buildScheduler danglingOps).getD TaskScheduler.new

/-- One `add_task` call on the empty scheduler. -/
def schedA : TaskScheduler :=
  (addTask TaskScheduler.new "A" ["B"] 2).getD TaskScheduler.new

/-- An acyclic graph with no dangling names whose total duration overflows
`u32`: A and C of duration `2 ^ 31`, and B depending on A. -/
def wrapOps : List (String × List String × Nat) :=
  [("A", ([] : List String), 2 ^ 31), ("C", ([] : List String), 2 ^ 31), ("B", ["A"], 1)]

def wrapSched : TaskScheduler := (buildScheduler wrapOps).getD TaskScheduler.new

/-- Three independent tasks of duration `2 ^ 31` each: the `u32` clock wraps
after the second one. -/
def wrap3Ops : List (String × List String × Nat) :=
  [("A", ([] : List String), 2 ^ 31), ("B", ([] : List String), 2 ^ 31),
   ("C", ([] : List String), 2 ^ 31)]

def wrap3Sched : TaskScheduler := (buildScheduler wrap3Ops).getD TaskScheduler.new

/-! ### Association-list lemmas -/

@[simp] theorem keysOf_nil {α : Type} : keysOf ([] : List (String × α)) = [] := rfl

@[simp] theorem keysOf_cons {α : Type} (p : String × α) (rest : List (String × α)) :
    keysOf (p :: rest) = p.1 :: keysOf rest := rfl

@[simp] theorem keysOf_append {α : Type} (m1 m2 : List (String × α)) :
    keysOf (m1 ++ m2) = keysOf m1 ++ keysOf m2 := by
  simp [keysOf]

@[simp] theorem alget_nil {α : Type} (k : String) :
    alget ([] : List (String × α)) k = none := rfl

@[simp] theorem alget_cons {α : Type} (k' : String) (v : α) (rest : List (String × α))
    (k : String) :
    alget ((k', v) :: rest) k = if k' = k then some v else alget rest k := rfl

@[simp] theorem alinsert_nil {α : Type} (k : String) (v : α) :
    alinsert ([] : List (String × α)) k v = [(k, v)] := rfl

@[simp] theorem alinsert_cons {α : Type} (k' : String) (w : α) (rest : List (String × α))
    (k : String) (v : α) :
    alinsert ((k', w) :: rest) k v
      = if k' = k then (k', v) :: rest else (k', w) :: alinsert rest k v := rfl

@[simp] theorem alpush_nil (k x : String) : alpush [] k x = [(k, [x])] := rfl

@[simp] theorem alpush_cons (k' : String) (l : List String)
    (rest : List (String × List String)) (k x : String) :
    alpush ((k', l) :: rest) k x
      = if k' = k then (k', l ++ [x]) :: rest else (k', l) :: alpush rest k x := rfl

@[simp] theorem cnt_nil (a : String) : cnt a [] = 0 := rfl

@[simp] theorem cnt_cons (a b : String) (l : List String) :
    cnt a (b :: l) = (if b = a then 1 else 0) + cnt a l := rfl

theorem alget_isSome_iff {α : Type} (m : List (String × α)) (k : String) :
    (alget m k).isSome ↔ k ∈ keysOf m := by
  induction m with
  | nil => simp
  | cons p rest ih =>
    obtain ⟨k', v⟩ := p
    by_cases h : k' = k
    · subst h; simp
    · have h' : ¬ k = k' := fun hh => h hh.symm
      simp [h, h', ih]

theorem alget_eq_none_iff {α : Type} (m : List (String × α)) (k : String) :
    alget m k = none ↔ k ∉ keysOf m := by
  rw [← alget_isSome_iff]
  cases alget m k <;> simp

theorem mem_of_alget {α : Type} {m : List (String × α)} {k : String} {v : α}
    (h : alget m k = some v) : (k, v) ∈ m := by
  induction m with
  | nil => simp at h
  | cons p rest ih =>
    obtain ⟨k', w⟩ := p
    by_cases hk : k' = k
    · subst hk
      simp at h
      simp [h]
    · simp [hk] at h
      exact List.mem_cons_of_mem _ (ih h)

theorem alget_of_mem_nodup {α : Type} {m : List (String × α)} {k : String} {v : α}
    (hnd : (keysOf m).Nodup) (h : (k, v) ∈ m) : alget m k = some v := by
  induction m with
  | nil => simp at h
  | cons p rest ih =>
    obtain ⟨k', w⟩ := p
    rw [keysOf_cons, List.nodup_cons] at hnd
    rcases List.mem_cons.mp h with h' | h'
    · injection h' with h1 h2
      subst h1; subst h2
      simp
    · have hmem : k ∈ keysOf rest := by
        have := List.mem_map_of_mem Prod.fst h'
        simpa [keysOf] using this
      have hne : k' ≠ k := by
        intro he
        subst he
        exact hnd.1 hmem
      simp [hne]
      exact ih hnd.2 h'

theorem alget_alinsert_self {α : Type} (m : List (String × α)) (k : String) (v : α) :
    alget (alinsert m k v) k = some v := by
  induction m with
  | nil => simp
  | cons p rest ih =>
    obtain ⟨k', w⟩ := p
    by_cases h : k' = k
    · subst h; simp
    · simp [h, ih]

theorem alget_alinsert_ne {α : Type} (m : List (String × α)) (k k' : String) (v : α)
    (h : k' ≠ k) : alget (alinsert m k v) k' = alget m k' := by
  have h' : ¬ k = k' := fun hh => h hh.symm
  induction m with
  | nil => simp [h']
  | cons p rest ih =>
    obtain ⟨k0, w⟩ := p
    by_cases h0 : k0 = k
    · subst h0
      simp [h']
    · by_cases h1 : k0 = k'
      · subst h1
        simp [h0]
      · simp [h0, h1, ih]

theorem keysOf_alinsert_mem {α : Type} {m : List (String × α)} {k : String} (v : α)
    (h : k ∈ keysOf m) : keysOf (alinsert m k v) = keysOf m := by
  induction m with
  | nil => simp at h
  | cons p rest ih =>
    obtain ⟨k', w⟩ := p
    by_cases h0 : k' = k
    · subst h0; simp
    · have h0' : ¬ k = k' := fun hh => h0 hh.symm
      rw [keysOf_cons, List.mem_cons] at h
      rcases h with h | h
      · exact absurd h h0'
      · simp [h0, ih h]

theorem keysOf_alinsert_not_mem {α : Type} {m : List (String × α)} {k : String} (v : α)
    (h : k ∉ keysOf m) : keysOf (alinsert m k v) = keysOf m ++ [k] := by
  induction m with
  | nil => simp
  | cons p rest ih =>
    obtain ⟨k', w⟩ := p
    rw [keysOf_cons, List.mem_cons] at h
    push_neg at h
    have h1 : k' ≠ k := fun hh => h.1 hh.symm
    simp [h1]
    exact ih h.2

theorem sumDeg_alinsert {m : List (String × Nat)} {k : String} {d : Nat}
    (h : alget m k = some (d + 1)) : sumDeg (alinsert m k d) + 1 = sumDeg m := by
  induction m with
  | nil => simp at h
  | cons p rest ih =>
    obtain ⟨k', w⟩ := p
    by_cases h0 : k' = k
    · subst h0
      simp at h
      subst h
      simp [sumDeg]
      omega
    · simp [h0] at h
      have := ih h
      simp [sumDeg, h0] at this ⊢
      omega

theorem alget_map_snd {α β : Type} (f : α → β) (m : List (String × α)) (k : String) :
    alget (m.map (fun p => (p.1, f p.2))) k = (alget m k).map f := by
  induction m with
  | nil => simp
  | cons p rest ih =>
    obtain ⟨k', v⟩ := p
    by_cases h : k' = k
    · subst h; simp
    · simp [h, ih]

theorem alinsert_map_snd {α β : Type} (f : α → β) (m : List (String × α)) (k : String)
    (v : α) :
    (alinsert m k v).map (fun p => (p.1, f p.2))
      = alinsert (m.map (fun p => (p.1, f p.2))) k (f v) := by
  induction m with
  | nil => simp
  | cons p rest ih =>
    obtain ⟨k', w⟩ := p
    by_cases h : k' = k
    · subst h; simp
    · simp [h, ih]

theorem algetD_alpush (m : List (String × List String)) (k k' x : String) :
    algetD (alpush m k x) k' []
      = if k' = k then algetD m k' [] ++ [x] else algetD m k' [] := by
  induction m with
  | nil =>
    by_cases h : k' = k
    · subst h; simp [algetD]
    · have h' : ¬ k = k' := fun hh => h hh.symm
      simp [algetD, h, h']
  | cons p rest ih =>
    obtain ⟨k0, l⟩ := p
    by_cases h0 : k0 = k
    · subst h0
      by_cases h1 : k0 = k'
      · subst h1; simp [algetD]
      · have h1' : ¬ k' = k0 := fun hh => h1 hh.symm
        simp [algetD, h1, h1']
    · by_cases h1 : k0 = k'
      · subst h1
        have h0' : ¬ k0 = k := h0
        simp [algetD, h0, h0']
      · simp [algetD, h0, h1] at ih ⊢
        exact ih

/-! ### Counting lemmas -/

theorem cnt_append (a : String) (l1 l2 : List String) :
    cnt a (l1 ++ l2) = cnt a l1 + cnt a l2 := by
  induction l1 with
  | nil => simp [cnt]
  | cons b l ih => simp [cnt, ih]; omega

theorem cnt_replicate (a b : String) (n : Nat) :
    cnt a (List.replicate n b) = if b = a then n else 0 := by
  induction n with
  | zero => simp [cnt]
  | succ n ih =>
    simp [List.replicate_succ, cnt, ih]
    by_cases h : b = a <;> simp [h] <;> omega

theorem cnt_eq_zero_of_not_mem {a : String} {l : List String} (h : a ∉ l) :
    cnt a l = 0 := by
  induction l with
  | nil => rfl
  | cons b l ih =>
    simp at h
    have hb : b ≠ a := fun hh => h.1 (Eq.symm hh)
    simp [cnt, hb, ih h.2]

theorem cnt_pos_of_mem {a : String} {l : List String} (h : a ∈ l) : 0 < cnt a l := by
  induction l with
  | nil => simp at h
  | cons b l ih =>
    rcases List.mem_cons.mp h with h' | h'
    · subst h'; simp [cnt]
    · have := ih h'
      simp [cnt]
      omega

theorem cnt_le_cnt_cons (a b : String) (l : List String) : cnt a l ≤ cnt a (b :: l) := by
  by_cases h : b = a <;> simp [cnt_cons, h] <;> omega

theorem sum_map_add_split {α : Type} (S : List α) (f g : α → Nat) :
    (S.map (fun P => f P + g P)).sum = (S.map f).sum + (S.map g).sum := by
  induction S with
  | nil => simp
  | cons Q S ih => simp [ih]; omega

theorem sum_indicator_not_mem {b : String} {S : List String} (h : b ∉ S) :
    (S.map (fun P => if b = P then 1 else 0)).sum = 0 := by
  induction S with
  | nil => simp
  | cons Q S ih =>
    simp at h
    simp [h.1, ih h.2]

theorem sum_indicator_nodup (b : String) {S : List String} (h : S.Nodup) :
    (S.map (fun P => if b = P then 1 else 0)).sum = if b ∈ S then 1 else 0 := by
  induction S with
  | nil => simp
  | cons Q S ih =>
    simp at h
    by_cases hb : b = Q
    · subst hb
      simp [sum_indicator_not_mem h.1]
    · simp [hb, ih h.2]

theorem sum_cnt_nodup (l : List String) {S : List String} (h : S.Nodup) :
    (S.map (fun P => cnt P l)).sum = (l.filter (fun a => decide (a ∈ S))).length := by
  induction l with
  | nil => simp [cnt]
  | cons b l ih =>
    have hsplit : (S.map (fun P => cnt P (b :: l))).sum
        = (S.map (fun P => if b = P then 1 else 0)).sum + (S.map (fun P => cnt P l)).sum := by
      rw [← sum_map_add_split]
      simp [cnt]
    rw [hsplit, sum_indicator_nodup b h, ih]
    by_cases hb : b ∈ S <;> simp [hb, List.filter] <;> omega

/-! ### Dsum lemmas -/

theorem Dsum_nil (ts : List (String × Task)) (T : String) : Dsum ts [] T = 0 := rfl

theorem Dsum_append (ts : List (String × Task)) (S1 S2 : List String) (T : String) :
    Dsum ts (S1 ++ S2) T = Dsum ts S1 T + Dsum ts S2 T := by
  simp [Dsum]

theorem Dsum_single (ts : List (String × Task)) (P T : String) :
    Dsum ts [P] T = cnt P (depsOf ts T) := by
  simp [Dsum]

theorem Dsum_eq_filter (ts : List (String × Task)) {S : List String} (T : String)
    (h : S.Nodup) :
    Dsum ts S T = ((depsOf ts T).filter (fun a => decide (a ∈ S))).length :=
  sum_cnt_nodup _ h

theorem Dsum_le (ts : List (String × Task)) {S : List String} (T : String)
    (h : S.Nodup) : Dsum ts S T ≤ (depsOf ts T).length := by
  rw [Dsum_eq_filter ts T h]
  exact (List.filter_sublist _).length_le

theorem Dsum_eq_len_iff (ts : List (String × Task)) {S : List String} (T : String)
    (h : S.Nodup) :
    Dsum ts S T = (depsOf ts T).length ↔ ∀ p ∈ depsOf ts T, p ∈ S := by
  rw [Dsum_eq_filter ts T h]
  constructor
  · intro he p hp
    have heq := (List.filter_sublist (l := depsOf ts T)
      (p := fun a => decide (a ∈ S))).eq_of_length he
    have hres := List.filter_eq_self.mp heq p hp
    simpa using hres
  · intro hall
    have heq : (depsOf ts T).filter (fun a => decide (a ∈ S)) = depsOf ts T :=
      List.filter_eq_self.mpr (by intro a ha; simpa using hall a ha)
    rw [heq]

/-! ### idxOf lemmas -/

@[simp] theorem idxOf_nil (a : String) : idxOf a [] = 0 := rfl

@[simp] theorem idxOf_cons (a b : String) (l : List String) :
    idxOf a (b :: l) = if b = a then 0 else idxOf a l + 1 := rfl

theorem idxOf_lt_length {a : String} {l : List String} (h : a ∈ l) :
    idxOf a l < l.length := by
  induction l with
  | nil => simp at h
  | cons b l ih =>
    by_cases hb : b = a
    · simp [hb]
    · have ha : a ∈ l := by
        rcases List.mem_cons.mp h with h' | h'
        · exact absurd h'.symm hb
        · exact h'
      have := ih ha
      simp [hb]
      omega

theorem idxOf_append_left {a : String} {l1 : List String} (l2 : List String)
    (h : a ∈ l1) : idxOf a (l1 ++ l2) = idxOf a l1 := by
  induction l1 with
  | nil => simp at h
  | cons b l ih =>
    by_cases hb : b = a
    · simp [hb]
    · have ha : a ∈ l := by
        rcases List.mem_cons.mp h with h' | h'
        · exact absurd h'.symm hb
        · exact h'
      simp [hb, ih ha]

theorem idxOf_append_right {a : String} {l1 : List String} (l2 : List String)
    (h : a ∉ l1) : idxOf a (l1 ++ l2) = l1.length + idxOf a l2 := by
  induction l1 with
  | nil => simp
  | cons b l ih =>
    rw [List.mem_cons] at h
    push_neg at h
    have hb : b ≠ a := fun hh => h.1 hh.symm
    simp [hb, ih h.2]
    omega

/-! ### TimedFrom lemmas -/

theorem timedFrom_nil (t0 : Nat) : TimedFrom t0 [] := trivial

@[simp] theorem timedFrom_cons (t0 : Nat) (e : String × Nat × Nat)
    (l : List (String × Nat × Nat)) :
    TimedFrom t0 (e :: l) ↔ e.2.1 = t0 ∧ TimedFrom (t0 + e.2.2) l := Iff.rfl

theorem timedFrom_append_single {t0 : Nat} {l : List (String × Nat × Nat)}
    (h : TimedFrom t0 l) (n : String) (d : Nat) :
    TimedFrom t0 (l ++ [(n, t0 + (l.map (fun e => e.2.2)).sum, d)]) := by
  induction l generalizing t0 with
  | nil => exact ⟨by simp, trivial⟩
  | cons e rest ih =>
    obtain ⟨h1, h2⟩ := h
    refine ⟨h1, ?_⟩
    have hr := ih h2
    simpa [Nat.add_assoc] using hr

theorem timedFrom_le {t0 : Nat} {l : List (String × Nat × Nat)}
    (h : TimedFrom t0 l) : ∀ e ∈ l, t0 ≤ e.2.1 := by
  induction l generalizing t0 with
  | nil => simp
  | cons e rest ih =>
    obtain ⟨h1, h2⟩ := h
    intro e' he'
    rcases List.mem_cons.mp he' with rfl | he'
    · omega
    · have := ih h2 e' he'
      omega

theorem timedFrom_pairwise {t0 : Nat} {l : List (String × Nat × Nat)}
    (h : TimedFrom t0 l) : l.Pairwise (fun a b => a.2.1 ≤ b.2.1) := by
  induction l generalizing t0 with
  | nil => simp
  | cons e rest ih =>
    obtain ⟨h1, h2⟩ := h
    refine List.Pairwise.cons ?_ (ih h2)
    intro b hb
    have := timedFrom_le h2 b hb
    omega

theorem timedFrom_getLast {t0 : Nat} {l : List (String × Nat × Nat)}
    {e : String × Nat × Nat} (h : TimedFrom t0 l) (hl : l.getLast? = some e) :
    e.2.1 + e.2.2 = t0 + (l.map (fun x => x.2.2)).sum := by
  induction l generalizing t0 with
  | nil => simp at hl
  | cons x rest ih =>
    obtain ⟨h1, h2⟩ := h
    cases rest with
    | nil =>
      simp [List.getLast?] at hl
      subst hl
      simp [h1]
    | cons y rest' =>
      rw [List.getLast?_cons_cons] at hl
      have hrec := ih h2 hl
      simp at hrec ⊢
      omega

/-! ### TimedFromW lemmas -/

@[simp] theorem timedFromW_cons (t0 : Nat) (e : String × Nat × Nat)
    (l : List (String × Nat × Nat)) :
    TimedFromW t0 (e :: l)
      ↔ e.2.1 = t0 ∧ TimedFromW ((t0 + e.2.2) % u32Mod) l := Iff.rfl

theorem timedFromW_append_single {t0 : Nat} {l : List (String × Nat × Nat)}
    (h : TimedFromW t0 l) (ht0 : t0 < u32Mod) (n : String) (d : Nat) :
    TimedFromW t0 (l ++ [(n, (t0 + (l.map (fun e => e.2.2)).sum) % u32Mod, d)]) := by
  induction l generalizing t0 with
  | nil =>
    refine ⟨?_, trivial⟩
    simp [Nat.mod_eq_of_lt ht0]
  | cons e rest ih =>
    obtain ⟨h1, h2⟩ := h
    refine ⟨h1, ?_⟩
    have hr := ih h2 (Nat.mod_lt _ (by norm_num [u32Mod]))
    have hmod : ((t0 + e.2.2) % u32Mod + (rest.map (fun e => e.2.2)).sum) % u32Mod
        = (t0 + (e.2.2 + (rest.map (fun e => e.2.2)).sum)) % u32Mod := by
      rw [Nat.mod_add_mod, Nat.add_assoc]
    rw [hmod] at hr
    simpa using hr

theorem timedFromW_getLast {t0 : Nat} {l : List (String × Nat × Nat)}
    {e : String × Nat × Nat} (h : TimedFromW t0 l) (hl : l.getLast? = some e) :
    (e.2.1 + e.2.2) % u32Mod = (t0 + (l.map (fun x => x.2.2)).sum) % u32Mod := by
  induction l generalizing t0 with
  | nil => simp at hl
  | cons x rest ih =>
    obtain ⟨h1, h2⟩ := h
    cases rest with
    | nil =>
      simp [List.getLast?] at hl
      subst hl
      simp [h1]
    | cons y rest' =>
      rw [List.getLast?_cons_cons] at hl
      have hrec := ih h2 hl
      rw [Nat.mod_add_mod] at hrec
      simp at hrec ⊢
      rw [hrec, Nat.add_assoc]

theorem timedFromW_to_timedFrom {t0 : Nat} {l : List (String × Nat × Nat)}
    (h : TimedFromW t0 l) (hlt : t0 + (l.map (fun e => e.2.2)).sum < u32Mod) :
    TimedFrom t0 l := by
  induction l generalizing t0 with
  | nil => trivial
  | cons e rest ih =>
    obtain ⟨h1, h2⟩ := h
    have hsmall : t0 + e.2.2 < u32Mod := by
      simp at hlt
      omega
    rw [Nat.mod_eq_of_lt hsmall] at h2
    refine ⟨h1, ih h2 ?_⟩
    simp at hlt
    omega

/-! ### Nodup / Perm utilities -/

theorem nodup_subset_length {l1 l2 : List String} (h1 : l1.Nodup) (h2 : l1 ⊆ l2) :
    l1.length ≤ l2.length :=
  (List.subperm_of_subset h1 h2).length_le

theorem perm_of_nodup_subset_length {l1 l2 : List String} (h1 : l1.Nodup)
    (h2 : l1 ⊆ l2) (h3 : l2.length ≤ l1.length) : l1.Perm l2 :=
  (List.subperm_of_subset h1 h2).perm_of_length_le h3

/-! ### A finite graph all of whose vertices have successors contains a cycle -/

theorem cycle_of_all_succ (R : String → String → Prop) :
    ∀ (n : Nat) (U : List String), U.length ≤ n →
      (∀ T ∈ U, ∃ p ∈ U, R T p) → U = [] ∨ ∃ T, Relation.TransGen R T T := by
  intro n
  induction n with
  | zero =>
    intro U hlen _
    left
    cases U with
    | nil => rfl
    | cons a l => simp at hlen
  | succ n ih =>
    intro U hlen hsucc
    cases U with
    | nil => exact Or.inl rfl
    | cons T0 U' =>
      right
      classical
      by_cases hT0 : Relation.TransGen R T0 T0
      · exact ⟨T0, hT0⟩
      set V := (T0 :: U').filter (fun x => decide (Relation.TransGen R T0 x)) with hVdef
      have hVsub : ∀ x ∈ V, x ∈ (T0 :: U') ∧ Relation.TransGen R T0 x := by
        intro x hx
        have hm := List.mem_filter.mp hx
        exact ⟨hm.1, by simpa using hm.2⟩
      have hVsucc : ∀ x ∈ V, ∃ p ∈ V, R x p := by
        intro x hx
        obtain ⟨hxU, hxT⟩ := hVsub x hx
        obtain ⟨p, hpU, hR⟩ := hsucc x hxU
        refine ⟨p, ?_, hR⟩
        refine List.mem_filter.mpr ⟨hpU, ?_⟩
        simp only [decide_eq_true_eq]
        exact hxT.tail hR
      have hT0V : T0 ∉ V := fun hmem => hT0 (hVsub T0 hmem).2
      have hVsl : V.Sublist (T0 :: U') := List.filter_sublist _
      have hVlen : V.length ≤ n := by
        have hle : V.length ≤ (T0 :: U').length := hVsl.length_le
        have hne : V ≠ T0 :: U' := by
          intro he
          exact hT0V (he ▸ List.mem_cons_self T0 U')
        have hlt : V.length < (T0 :: U').length := by
          rcases Nat.lt_or_ge V.length (T0 :: U').length with hc | hc
          · exact hc
          · exact absurd (hVsl.eq_of_length (Nat.le_antisymm hle hc)) hne
        simp at hlt hlen
        omega
      have hVne : V ≠ [] := by
        obtain ⟨p0, hp0U, hR0⟩ := hsucc T0 (List.mem_cons_self T0 U')
        have hp0V : p0 ∈ V := by
          refine List.mem_filter.mpr ⟨hp0U, ?_⟩
          simp only [decide_eq_true_eq]
          exact Relation.TransGen.single hR0
        intro he
        rw [he] at hp0V
        simp at hp0V
      rcases ih V hVlen hVsucc with h | h
      · exact absurd h hVne
      · exact h

/-- A rank function that strictly decreases along every registered dependency
edge certifies acyclicity. -/
theorem rank_lt_of_transGen {s : TaskScheduler} {rank : String → Nat}
    (h : ∀ T ∈ keysOf s.tasks, ∀ P ∈ depsOf s.tasks T, rank P < rank T)
    {a b : String} (htg : Relation.TransGen (DependsOn s) a b) : rank b < rank a := by
  induction htg with
  | single hr => exact h _ hr.1 _ hr.2.2
  | tail _ hr ih => exact lt_trans (h _ hr.1 _ hr.2.2) ih

theorem acyclic_of_rank (s : TaskScheduler) (rank : String → Nat)
    (h : ∀ T ∈ keysOf s.tasks, ∀ P ∈ depsOf s.tasks T, rank P < rank T) : Acyclic s := by
  intro T htg
  exact absurd (rank_lt_of_transGen h htg) (lt_irrefl _)

/-! ### Static well-formedness of reachable scheduler states -/

/-- The invariants `add_task` maintains between the three tables. -/
structure WFS (s : TaskScheduler) : Prop where
  fld_eq : s.first_level_dep = s.tasks.map (fun p => (p.1, p.2.dependencies.length))
  keys_nodup : (keysOf s.tasks).Nodup
  cnt_rel : ∀ P T, cnt T (algetD s.dependents P []) = cnt P (depsOf s.tasks T)

theorem wfs_new : WFS TaskScheduler.new := by
  refine ⟨rfl, by simp [TaskScheduler.new], ?_⟩
  intro P T
  simp [TaskScheduler.new, algetD, depsOf]

theorem single_append_replicate (x : String) (n : Nat) :
    [x] ++ List.replicate n x = List.replicate (1 + n) x := by
  rw [Nat.add_comm]
  simp [List.replicate_succ]

theorem algetD_foldl_alpush (x : String) :
    ∀ (deps : List String) (m : List (String × List String)) (k : String),
      algetD (deps.foldl (fun m d => alpush m d x) m) k []
        = algetD m k [] ++ List.replicate (cnt k deps) x := by
  intro deps
  induction deps with
  | nil =>
    intro m k
    simp
  | cons d rest ih =>
    intro m k
    rw [List.foldl_cons, ih, algetD_alpush]
    by_cases h : d = k
    · subst h
      simp [List.append_assoc, Nat.one_add, List.replicate_succ]
    · have h' : ¬ k = d := fun hh => h hh.symm
      simp [h', h]

theorem keysOf_fld {s : TaskScheduler} (hw : WFS s) :
    keysOf s.first_level_dep = keysOf s.tasks := by
  rw [hw.fld_eq]
  simp [keysOf, List.map_map, Function.comp]

theorem wfs_addTask {s s' : TaskScheduler} {name : String} {deps : List String}
    {dur : Nat} (hw : WFS s) (h : addTask s name deps dur = some s') : WFS s' := by
  unfold addTask at h
  by_cases hex : (alget s.tasks name).isSome
  · simp [hex] at h
  · have hnone : alget s.tasks name = none := Option.not_isSome_iff_eq_none.mp hex
    simp [hex] at h
    have hnm : name ∉ keysOf s.tasks := (alget_eq_none_iff _ _).mp hnone
    refine ⟨?_, ?_, ?_⟩
    · rw [← h]
      show alinsert s.first_level_dep name deps.length
        = (alinsert s.tasks name ⟨name, deps, dur⟩).map
            (fun p => (p.1, p.2.dependencies.length))
      rw [alinsert_map_snd (fun t => t.dependencies.length) s.tasks name, ← hw.fld_eq]
    · rw [← h]
      show (keysOf (alinsert s.tasks name ⟨name, deps, dur⟩)).Nodup
      rw [keysOf_alinsert_not_mem _ hnm]
      exact (hw.keys_nodup).append (List.nodup_singleton name)
        (by simpa [List.disjoint_singleton] using hnm)
    · rw [← h]
      intro P T
      show cnt T (algetD (deps.foldl (fun m d => alpush m d name) s.dependents) P [])
        = cnt P (depsOf (alinsert s.tasks name ⟨name, deps, dur⟩) T)
      rw [algetD_foldl_alpush, cnt_append, cnt_replicate]
      by_cases hT : T = name
      · subst hT
        have hz : cnt T (algetD s.dependents P []) = 0 := by
          rw [hw.cnt_rel P T]
          simp [depsOf, hnone]
        rw [hz]
        simp [depsOf, alget_alinsert_self]
      · have hT' : ¬ name = T := fun hh => hT hh.symm
        rw [if_neg hT']
        have hd : depsOf (alinsert s.tasks name ⟨name, deps, dur⟩) T = depsOf s.tasks T := by
          simp [depsOf, alget_alinsert_ne s.tasks name T _ hT]
        rw [hd, hw.cnt_rel P T]
        simp

theorem buildScheduler_foldl_none (ops : List (String × List String × Nat)) :
    ops.foldl (fun acc op => acc.bind fun s => addTask s op.1 op.2.1 op.2.2) none
      = none := by
  induction ops with
  | nil => rfl
  | cons op rest ih => simpa using ih

theorem wfs_of_reachable {s : TaskScheduler} (h : Reachable s) : WFS s := by
  obtain ⟨ops, hops⟩ := h
  unfold buildScheduler at hops
  suffices H : ∀ (ops : List (String × List String × Nat)) (s0 : TaskScheduler),
      WFS s0 →
      ops.foldl (fun acc op => acc.bind fun s => addTask s op.1 op.2.1 op.2.2) (some s0)
        = some s →
      WFS s from H ops TaskScheduler.new wfs_new hops
  intro ops
  induction ops with
  | nil =>
    intro s0 hw h0
    simp at h0
    exact h0 ▸ hw
  | cons op rest ih =>
    intro s0 hw h0
    rw [List.foldl_cons] at h0
    cases hstep : addTask s0 op.1 op.2.1 op.2.2 with
    | none =>
      rw [show (some s0).bind (fun s => addTask s op.1 op.2.1 op.2.2) = none by
        simpa using hstep] at h0
      rw [buildScheduler_foldl_none] at h0
      exact absurd h0 (by simp)
    | some s1 =>
      rw [show (some s0).bind (fun s => addTask s op.1 op.2.1 op.2.2) = some s1 by
        simpa using hstep] at h0
      exact ih s1 (wfs_addTask hw hstep) h0

/-! ### The inner neighbor loop -/

@[simp] theorem processNeighbors_nil (indeg : List (String × Nat)) (Fr : List String) :
    processNeighbors [] indeg Fr = .ok (indeg, Fr) := rfl

theorem processNeighbors_cons (n : String) (rest : List String)
    (indeg : List (String × Nat)) (Fr : List String) :
    processNeighbors (n :: rest) indeg Fr
      = match alget indeg n with
        | none => processNeighbors rest indeg Fr
        | some 0 => .error .underflow
        | some (d + 1) =>
          processNeighbors rest (alinsert indeg n d)
            (if d = 0 then Fr ++ [n] else Fr) := rfl

/-- Full behaviour of the neighbor-decrement loop under the scheduling
invariant: it never underflows, every tracked degree drops by the number of
occurrences of its name among the remaining neighbors, newly zeroed tasks are
appended to the frontier, and frontier growth is paid for by degree drops.
`A` is the list of already scheduled names together with the task whose
neighbor list is being processed. -/
theorem processNeighbors_spec (ts : List (String × Task)) (A : List String) :
    ∀ (nbrs : List String) (indeg : List (String × Nat)) (Fr : List String),
      keysOf indeg = keysOf ts →
      (A ++ Fr).Nodup →
      (∀ x ∈ Fr, x ∈ keysOf ts) →
      (∀ T ∈ A ++ Fr, alget indeg T = some 0) →
      (∀ T, alget indeg T = some 0 → T ∈ A ++ Fr) →
      (∀ T d, alget indeg T = some d → cnt T nbrs ≤ d) →
      ∃ indeg' Fr2,
        processNeighbors nbrs indeg Fr = .ok (indeg', Fr ++ Fr2) ∧
        keysOf indeg' = keysOf ts ∧
        (A ++ (Fr ++ Fr2)).Nodup ∧
        (∀ x ∈ Fr2, x ∈ keysOf ts) ∧
        (∀ T ∈ A ++ (Fr ++ Fr2), alget indeg' T = some 0) ∧
        (∀ T, alget indeg' T = some 0 → T ∈ A ++ (Fr ++ Fr2)) ∧
        (∀ T d, alget indeg T = some d → alget indeg' T = some (d - cnt T nbrs)) ∧
        (Fr ++ Fr2).length + sumDeg indeg' ≤ Fr.length + sumDeg indeg := by
  intro nbrs
  induction nbrs with
  | nil =>
    intro indeg Fr h1 h2 h3 h5 h5' h4
    refine ⟨indeg, [], by simp, h1, by simpa using h2, by simp, ?_, ?_, ?_, by simp⟩
    · simpa using h5
    · simpa using h5'
    · intro T d hd
      simpa using hd
  | cons n rest ih =>
    intro indeg Fr h1 h2 h3 h5 h5' h4
    cases hdeg : alget indeg n with
    | none =>
      have hstep : processNeighbors (n :: rest) indeg Fr = processNeighbors rest indeg Fr := by
        rw [processNeighbors_cons, hdeg]
      have hne : ∀ T d, alget indeg T = some d → T ≠ n := by
        intro T d hT hTn
        subst hTn
        rw [hT] at hdeg
        exact Option.noConfusion hdeg
      have h4' : ∀ T d, alget indeg T = some d → cnt T rest ≤ d := by
        intro T d hT
        have hb := h4 T d hT
        have hTn : ¬ n = T := fun hh => (hne T d hT) hh.symm
        have hc : cnt T (n :: rest) = cnt T rest := by
          simp [cnt_cons, hTn]
        omega
      obtain ⟨indeg', Fr2, heq, c1, c2, c3, c5, c5', c4, c6⟩ := ih indeg Fr h1 h2 h3 h5 h5' h4'
      refine ⟨indeg', Fr2, hstep.trans heq, c1, c2, c3, c5, c5', ?_, c6⟩
      intro T d hT
      have hTn : ¬ n = T := fun hh => (hne T d hT) hh.symm
      have hcnt : cnt T (n :: rest) = cnt T rest := by
        simp [cnt_cons, hTn]
      rw [hcnt]
      exact c4 T d hT
    | some d0 =>
      cases d0 with
      | zero =>
        exfalso
        have hb := h4 n 0 hdeg
        simp [cnt_cons] at hb
      | succ d =>
        -- the decrement branch
        have hstep : processNeighbors (n :: rest) indeg Fr
            = processNeighbors rest (alinsert indeg n d)
                (if d = 0 then Fr ++ [n] else Fr) := by
          rw [processNeighbors_cons, hdeg]
        have hnk : n ∈ keysOf indeg := by
          rw [← alget_isSome_iff, hdeg]
          rfl
        have hnts : n ∈ keysOf ts := h1 ▸ hnk
        have hnotAF : n ∉ A ++ Fr := by
          intro hmem
          rw [h5 n hmem] at hdeg
          injection hdeg with hdeg
          omega
        have hkeys1 : keysOf (alinsert indeg n d) = keysOf ts := by
          rw [keysOf_alinsert_mem d hnk, h1]
        have hget1 : ∀ T, alget (alinsert indeg n d) T
            = if T = n then some d else alget indeg T := by
          intro T
          by_cases hT : T = n
          · subst hT
            simp [alget_alinsert_self]
          · simp [hT, alget_alinsert_ne indeg n T d hT]
        by_cases hd0 : d = 0
        · -- the decremented degree hit zero: push n
          subst hd0
          rw [if_pos rfl] at hstep
          have h2' : (A ++ (Fr ++ [n])).Nodup := by
            rw [← List.append_assoc]
            exact h2.append (List.nodup_singleton n)
              (by simpa [List.disjoint_singleton] using hnotAF)
          have h3' : ∀ x ∈ Fr ++ [n], x ∈ keysOf ts := by
            intro x hx
            rcases List.mem_append.mp hx with hx | hx
            · exact h3 x hx
            · simp at hx
              subst hx
              exact hnts
          have h5n : ∀ T ∈ A ++ (Fr ++ [n]), alget (alinsert indeg n 0) T = some 0 := by
            intro T hT
            rw [hget1]
            by_cases hTn : T = n
            · simp [hTn]
            · rw [if_neg hTn]
              rw [← List.append_assoc] at hT
              rcases List.mem_append.mp hT with hT | hT
              · exact h5 T hT
              · simp at hT
                exact absurd hT hTn
          have h5n' : ∀ T, alget (alinsert indeg n 0) T = some 0 → T ∈ A ++ (Fr ++ [n]) := by
            intro T hT
            rw [hget1] at hT
            by_cases hTn : T = n
            · rw [hTn]
              simp
            · rw [if_neg hTn] at hT
              have hmem := h5' T hT
              rw [← List.append_assoc]
              exact List.mem_append_left _ hmem
          have h4' : ∀ T d', alget (alinsert indeg n 0) T = some d' → cnt T rest ≤ d' := by
            intro T d' hT
            rw [hget1] at hT
            by_cases hTn : T = n
            · rw [if_pos hTn] at hT
              injection hT with hT
              have hb := h4 n (0 + 1) hdeg
              simp [cnt_cons] at hb
              rw [hTn]
              omega
            · rw [if_neg hTn] at hT
              have hb := h4 T d' hT
              have hle := cnt_le_cnt_cons T n rest
              omega
          obtain ⟨indeg', Fr2', heq, c1, c2, c3, c5, c5', c4, c6⟩ :=
            ih (alinsert indeg n 0) (Fr ++ [n]) hkeys1 h2' h3' h5n h5n' h4'
          refine ⟨indeg', [n] ++ Fr2', ?_, c1, ?_, ?_, ?_, ?_, ?_, ?_⟩
          · rw [hstep, heq, List.append_assoc]
          · simpa using c2
          · intro x hx
            rcases List.mem_append.mp hx with hx | hx
            · simp at hx
              subst hx
              exact hnts
            · exact c3 x hx
          · intro T hT
            exact c5 T (by simpa using hT)
          · intro T hT
            have hmem := c5' T hT
            simpa using hmem
          · intro T d' hT
            by_cases hTn : T = n
            · rw [hTn] at hT
              rw [hT] at hdeg
              injection hdeg with hdeg
              have hc4 := c4 n 0 (by rw [hget1]; simp)
              have hcnt : cnt n (n :: rest) = 1 + cnt n rest := by
                simp [cnt_cons]
              rw [hTn, hcnt]
              have hz : d' - (1 + cnt n rest) = 0 - cnt n rest := by omega
              rw [hz]
              exact hc4
            · have hc4 := c4 T d' (by rw [hget1, if_neg hTn]; exact hT)
              have hnT : ¬ n = T := fun hh => hTn hh.symm
              have hcnt : cnt T (n :: rest) = cnt T rest := by
                simp [cnt_cons, hnT]
              rw [hcnt]
              exact hc4
          · have hsd : sumDeg (alinsert indeg n 0) + 1 = sumDeg indeg :=
              sumDeg_alinsert hdeg
            have hlen : (Fr ++ [n]).length = Fr.length + 1 := by simp
            have hlen2 : (Fr ++ [n] ++ Fr2').length = (Fr ++ ([n] ++ Fr2')).length := by
              simp
            omega
        · -- the decremented degree is still positive: no push
          rw [if_neg hd0] at hstep
          have h5n : ∀ T ∈ A ++ Fr, alget (alinsert indeg n d) T = some 0 := by
            intro T hT
            rw [hget1]
            by_cases hTn : T = n
            · exact absurd (hTn ▸ hT) hnotAF
            · rw [if_neg hTn]
              exact h5 T hT
          have h5n' : ∀ T, alget (alinsert indeg n d) T = some 0 → T ∈ A ++ Fr := by
            intro T hT
            rw [hget1] at hT
            by_cases hTn : T = n
            · rw [if_pos hTn] at hT
              injection hT with hT
              exact absurd hT hd0
            · rw [if_neg hTn] at hT
              exact h5' T hT
          have h4' : ∀ T d', alget (alinsert indeg n d) T = some d' → cnt T rest ≤ d' := by
            intro T d' hT
            rw [hget1] at hT
            by_cases hTn : T = n
            · rw [if_pos hTn] at hT
              injection hT with hT
              have hb := h4 n (d + 1) hdeg
              simp [cnt_cons] at hb
              rw [hTn]
              omega
            · rw [if_neg hTn] at hT
              have hb := h4 T d' hT
              have hle := cnt_le_cnt_cons T n rest
              omega
          obtain ⟨indeg', Fr2', heq, c1, c2, c3, c5, c5', c4, c6⟩ :=
            ih (alinsert indeg n d) Fr hkeys1 h2 h3 h5n h5n' h4'
          refine ⟨indeg', Fr2', hstep.trans heq, c1, c2, c3, c5, c5', ?_, ?_⟩
          · intro T d' hT
            by_cases hTn : T = n
            · rw [hTn] at hT
              rw [hT] at hdeg
              injection hdeg with hdeg
              have hc4 := c4 n d (by rw [hget1]; simp)
              have hcnt : cnt n (n :: rest) = 1 + cnt n rest := by
                simp [cnt_cons]
              rw [hTn, hcnt]
              have hz : d' - (1 + cnt n rest) = d - cnt n rest := by omega
              rw [hz]
              exact hc4
            · have hc4 := c4 T d' (by rw [hget1, if_neg hTn]; exact hT)
              have hnT : ¬ n = T := fun hh => hTn hh.symm
              have hcnt : cnt T (n :: rest) = cnt T rest := by
                simp [cnt_cons, hnT]
              rw [hcnt]
              exact hc4
          · have hsd : sumDeg (alinsert indeg n d) + 1 = sumDeg indeg :=
              sumDeg_alinsert hdeg
            omega

/-! ### The main scheduling loop -/

@[simp] theorem schedLoop_nil (ts : List (String × Task)) (dps : List (String × List String))
    (fuel : Nat) (indeg : List (String × Nat)) (order : List (String × Nat × Nat))
    (time : Nat) :
    schedLoop ts dps fuel [] indeg order time = .ok order := by
  cases fuel <;> rfl

theorem schedLoop_cons_succ (ts : List (String × Task)) (dps : List (String × List String))
    (fuel : Nat) (q : String) (rest : List String) (indeg : List (String × Nat))
    (order : List (String × Nat × Nat)) (time : Nat) :
    schedLoop ts dps (fuel + 1) (q :: rest) indeg order time
      = match alget ts q with
        | none => schedLoop ts dps fuel rest indeg order time
        | some task =>
          match processNeighbors (algetD dps q []) indeg rest with
          | .error e => .error e
          | .ok (indeg', frontier') =>
            schedLoop ts dps fuel frontier' indeg'
              (order ++ [(q, time, task.duration)])
              ((time + task.duration) % u32Mod) := rfl

/-- The dynamic invariant of the scheduling loop, tying the frontier, the
mutable in-degree copy, the accumulated order and the running clock to the
scheduler's tables. -/
structure LoopInv (ts : List (String × Task)) (F : List String)
    (indeg : List (String × Nat)) (order : List (String × Nat × Nat))
    (time : Nat) : Prop where
  keys_eq : keysOf indeg = keysOf ts
  nodup : (order.map (fun e => e.1) ++ F).Nodup
  fr_reg : ∀ x ∈ F, x ∈ keysOf ts
  deg_eq : ∀ T d, alget indeg T = some d →
    d + Dsum ts (order.map (fun e => e.1)) T = (depsOf ts T).length
  mem_zero : ∀ T ∈ order.map (fun e => e.1) ++ F, alget indeg T = some 0
  zero_mem : ∀ T, alget indeg T = some 0 → T ∈ order.map (fun e => e.1) ++ F
  entry_dur : ∀ e ∈ order, ∃ t, alget ts e.1 = some t ∧ e.2.2 = t.duration
  time_eq : time = (order.map (fun e => e.2.2)).sum % u32Mod
  timed : TimedFromW 0 order
  deps_sched : ∀ e ∈ order, ∀ p ∈ depsOf ts e.1, p ∈ order.map (fun e => e.1)
  nowrap : (order.map (fun e => e.2.2)).sum < u32Mod →
    time = (order.map (fun e => e.2.2)).sum ∧
    (∀ e ∈ order, e.2.1 + e.2.2 ≤ time) ∧
    (∀ e ∈ order, ∀ p ∈ depsOf ts e.1,
      ∃ e2, e2 ∈ order ∧ e2.1 = p ∧ e2.2.1 + e2.2.2 ≤ e.2.1)
  fr_deps : ∀ T ∈ F, ∀ p ∈ depsOf ts T, p ∈ order.map (fun e => e.1)
  idx_lt : ∀ e ∈ order, ∀ p ∈ depsOf ts e.1,
    idxOf p (order.map (fun e => e.1)) < idxOf e.1 (order.map (fun e => e.1))

/-- Master lemma: under the invariant and with enough fuel the scheduling
loop terminates normally (no underflow, no fuel exhaustion) in a state that
satisfies the invariant with an empty frontier. -/
theorem schedLoop_master (ts : List (String × Task)) (dps : List (String × List String))
    (hcnt : ∀ P T, cnt T (algetD dps P []) = cnt P (depsOf ts T)) :
    ∀ (fuel : Nat) (F : List String) (indeg : List (String × Nat))
      (order : List (String × Nat × Nat)) (time : Nat),
      LoopInv ts F indeg order time →
      F.length + sumDeg indeg ≤ fuel →
      ∃ order' indeg' time',
        schedLoop ts dps fuel F indeg order time = .ok order' ∧
        LoopInv ts [] indeg' order' time' := by
  intro fuel
  induction fuel with
  | zero =>
    intro F indeg order time hinv hfuel
    cases F with
    | nil => exact ⟨order, indeg, time, by simp, hinv⟩
    | cons q rest =>
      exfalso
      rw [List.length_cons] at hfuel
      omega
  | succ fuel ih =>
    intro F indeg order time hinv hfuel
    cases F with
    | nil => exact ⟨order, indeg, time, by simp, hinv⟩
    | cons q rest =>
      have hq_reg : q ∈ keysOf ts := hinv.fr_reg q (List.mem_cons_self q rest)
      have htsome : (alget ts q).isSome := (alget_isSome_iff ts q).mpr hq_reg
      cases htask : alget ts q with
      | none =>
        rw [htask] at htsome
        exact absurd htsome (by simp)
      | some task =>
        set S := order.map (fun e => e.1) with hS
        have hSq : S ++ q :: rest = (S ++ [q]) ++ rest := by
          rw [List.append_cons]
        have hnodupA : ((S ++ [q]) ++ rest).Nodup := by
          rw [← hSq]
          exact hinv.nodup
        have h3 : ∀ x ∈ rest, x ∈ keysOf ts :=
          fun x hx => hinv.fr_reg x (List.mem_cons_of_mem q hx)
        have h5 : ∀ T ∈ (S ++ [q]) ++ rest, alget indeg T = some 0 := by
          intro T hT
          rw [← hSq] at hT
          exact hinv.mem_zero T hT
        have h5' : ∀ T, alget indeg T = some 0 → T ∈ (S ++ [q]) ++ rest := by
          intro T hT
          have hm := hinv.zero_mem T hT
          rw [hSq] at hm
          exact hm
        have hSqnodup : (S ++ [q]).Nodup := hnodupA.of_append_left
        have h4 : ∀ T d, alget indeg T = some d → cnt T (algetD dps q []) ≤ d := by
          intro T d hT
          rw [hcnt q T]
          have hdeq := hinv.deg_eq T d hT
          rw [← hS] at hdeq
          have hDsum : Dsum ts (S ++ [q]) T ≤ (depsOf ts T).length := Dsum_le ts T hSqnodup
          rw [Dsum_append, Dsum_single] at hDsum
          omega
        obtain ⟨indeg1, Fr2, heqPN, c1, c2, c3, c5, c5', c4, c6⟩ :=
          processNeighbors_spec ts (S ++ [q]) (algetD dps q []) indeg rest
            hinv.keys_eq hnodupA h3 h5 h5' h4
        have hstep : schedLoop ts dps (fuel + 1) (q :: rest) indeg order time
            = schedLoop ts dps fuel (rest ++ Fr2) indeg1
                (order ++ [(q, time, task.duration)])
                ((time + task.duration) % u32Mod) := by
          rw [schedLoop_cons_succ, htask, heqPN]
        have hmapS : (order ++ [(q, time, task.duration)]).map (fun e => e.1)
            = S ++ [q] := by
          simp [hS]
        have hq_notS : q ∉ S := by
          intro hq
          have hnd := hinv.nodup
          rw [List.nodup_append] at hnd
          exact hnd.2.2 hq (List.mem_cons_self q rest)
        have hdeg_new : ∀ T d', alget indeg1 T = some d' →
            d' + Dsum ts (S ++ [q]) T = (depsOf ts T).length := by
          intro T d' hT'
          have hTk : T ∈ keysOf ts := by
            rw [← c1, ← alget_isSome_iff, hT']
            rfl
          have hTold : (alget indeg T).isSome := by
            rw [alget_isSome_iff, hinv.keys_eq]
            exact hTk
          obtain ⟨d, hd⟩ := Option.isSome_iff_exists.mp hTold
          have hc4 := c4 T d hd
          rw [hT'] at hc4
          injection hc4 with hc4
          have hcl := h4 T d hd
          have hdeq := hinv.deg_eq T d hd
          rw [← hS] at hdeq
          rw [Dsum_append, Dsum_single, ← hcnt q T]
          omega
        have hfr_deps1 : ∀ T ∈ rest ++ Fr2, ∀ p ∈ depsOf ts T, p ∈ S ++ [q] := by
          intro T hT p hp
          rcases List.mem_append.mp hT with hT | hT
          · exact List.mem_append_left _
              (hinv.fr_deps T (List.mem_cons_of_mem q hT) p hp)
          · have hz : alget indeg1 T = some 0 :=
              c5 T (List.mem_append_right _ (List.mem_append_right _ hT))
            have hlen := hdeg_new T 0 hz
            exact (Dsum_eq_len_iff ts T hSqnodup).mp (by omega) p hp
        have hdeps1 : ∀ e ∈ order ++ [(q, time, task.duration)],
            ∀ p ∈ depsOf ts e.1, p ∈ S ++ [q] := by
          intro e he p hp
          rcases List.mem_append.mp he with he | he
          · exact List.mem_append_left _ (hinv.deps_sched e he p hp)
          · simp at he
            subst he
            exact List.mem_append_left _
              (hinv.fr_deps q (List.mem_cons_self q rest) p hp)
        have hidx1 : ∀ e ∈ order ++ [(q, time, task.duration)], ∀ p ∈ depsOf ts e.1,
            idxOf p (S ++ [q]) < idxOf e.1 (S ++ [q]) := by
          intro e he p hp
          rcases List.mem_append.mp he with he | he
          · have hold := hinv.idx_lt e he p hp
            have hpS : p ∈ S := hinv.deps_sched e he p hp
            have heS : e.1 ∈ S := List.mem_map_of_mem _ he
            rw [idxOf_append_left _ hpS, idxOf_append_left _ heS]
            exact hold
          · simp at he
            subst he
            have hpS : p ∈ S := hinv.fr_deps q (List.mem_cons_self q rest) p hp
            rw [idxOf_append_left _ hpS, idxOf_append_right _ hq_notS]
            have hlt := idxOf_lt_length hpS
            simp [idxOf]
            omega
        have htimed1 : TimedFromW 0 (order ++ [(q, time, task.duration)]) := by
          have happ := timedFromW_append_single hinv.timed
            (by norm_num [u32Mod]) q task.duration
          rw [hinv.time_eq]
          simpa using happ
        have hdur1 : ∀ e ∈ order ++ [(q, time, task.duration)],
            ∃ t, alget ts e.1 = some t ∧ e.2.2 = t.duration := by
          intro e he
          rcases List.mem_append.mp he with he | he
          · exact hinv.entry_dur e he
          · simp at he
            subst he
            exact ⟨task, htask, rfl⟩
        have hnowrap1 :
            ((order ++ [(q, time, task.duration)]).map (fun e => e.2.2)).sum < u32Mod →
            (time + task.duration) % u32Mod
                = ((order ++ [(q, time, task.duration)]).map (fun e => e.2.2)).sum ∧
            (∀ e ∈ order ++ [(q, time, task.duration)],
              e.2.1 + e.2.2 ≤ (time + task.duration) % u32Mod) ∧
            (∀ e ∈ order ++ [(q, time, task.duration)], ∀ p ∈ depsOf ts e.1,
              ∃ e2, e2 ∈ order ++ [(q, time, task.duration)] ∧ e2.1 = p ∧
                e2.2.1 + e2.2.2 ≤ e.2.1) := by
          intro hS'
          have hmap' : ((order ++ [(q, time, task.duration)]).map (fun e => e.2.2)).sum
              = (order.map (fun e => e.2.2)).sum + task.duration := by
            simp
          rw [hmap'] at hS'
          obtain ⟨ht, hf, hdf⟩ := hinv.nowrap (by omega)
          have htime' : (time + task.duration) % u32Mod
              = (order.map (fun e => e.2.2)).sum + task.duration := by
            rw [ht]
            exact Nat.mod_eq_of_lt hS'
          refine ⟨by rw [htime', hmap'], ?_, ?_⟩
          · intro e he
            rcases List.mem_append.mp he with he | he
            · have hb := hf e he
              rw [htime', ht] at *
              omega
            · simp at he
              subst he
              rw [htime', ht]
          · intro e he p hp
            rcases List.mem_append.mp he with he | he
            · obtain ⟨e2, he2, hb1, hb2⟩ := hdf e he p hp
              exact ⟨e2, List.mem_append_left _ he2, hb1, hb2⟩
            · simp at he
              subst he
              have hpS : p ∈ S := hinv.fr_deps q (List.mem_cons_self q rest) p hp
              obtain ⟨e2, he2, hfe⟩ := List.mem_map.mp hpS
              exact ⟨e2, List.mem_append_left _ he2, hfe, hf e2 he2⟩
        have hinv1 : LoopInv ts (rest ++ Fr2) indeg1
            (order ++ [(q, time, task.duration)]) ((time + task.duration) % u32Mod) := by
          refine ⟨c1, ?_, ?_, ?_, ?_, ?_, hdur1, ?_, htimed1, ?_, hnowrap1, ?_, ?_⟩
          · rw [hmapS]
            exact c2
          · intro x hx
            rcases List.mem_append.mp hx with hx | hx
            · exact h3 x hx
            · exact c3 x hx
          · rw [hmapS]
            exact hdeg_new
          · rw [hmapS]
            exact c5
          · rw [hmapS]
            exact c5'
          · have hmap' : ((order ++ [(q, time, task.duration)]).map (fun e => e.2.2)).sum
                = (order.map (fun e => e.2.2)).sum + task.duration := by
              simp
            rw [hmap', hinv.time_eq, Nat.mod_add_mod]
          · rw [hmapS]
            exact hdeps1
          · rw [hmapS]
            exact hfr_deps1
          · rw [hmapS]
            exact hidx1
        have hfuel1 : (rest ++ Fr2).length + sumDeg indeg1 ≤ fuel := by
          rw [List.length_cons] at hfuel
          omega
        obtain ⟨order', indeg', time', heqrec, hinvrec⟩ :=
          ih (rest ++ Fr2) indeg1 (order ++ [(q, time, task.duration)])
            ((time + task.duration) % u32Mod) hinv1 hfuel1
        exact ⟨order', indeg', time', hstep.trans heqrec, hinvrec⟩

/-! ### The initial state satisfies the invariant -/

theorem loopInv_initial {s : TaskScheduler} (hw : WFS s) :
    LoopInv s.tasks (seedFrontier s.first_level_dep) s.first_level_dep [] 0 := by
  have hkeys : keysOf s.first_level_dep = keysOf s.tasks := keysOf_fld hw
  have hfldnodup : (keysOf s.first_level_dep).Nodup := by
    rw [hkeys]
    exact hw.keys_nodup
  have hseed_sub : List.Sublist (seedFrontier s.first_level_dep)
      (keysOf s.first_level_dep) :=
    (List.filter_sublist _).map Prod.fst
  have hget_fld : ∀ T d, alget s.first_level_dep T = some d →
      d = (depsOf s.tasks T).length := by
    intro T d hd
    rw [hw.fld_eq, alget_map_snd (fun t => t.dependencies.length) s.tasks T] at hd
    cases ht : alget s.tasks T with
    | none => rw [ht] at hd; exact absurd hd (by simp)
    | some t =>
      rw [ht] at hd
      simp at hd
      simp [depsOf, ht, hd]
  have hmem_seed : ∀ T ∈ seedFrontier s.first_level_dep,
      alget s.first_level_dep T = some 0 := by
    intro T hT
    obtain ⟨p, hp, hfp⟩ := List.mem_map.mp hT
    have hpm := List.mem_filter.mp hp
    have hp0 : p.2 = 0 := by simpa using hpm.2
    have := alget_of_mem_nodup hfldnodup (show (p.1, p.2) ∈ s.first_level_dep by
      simpa using hpm.1)
    rw [hfp] at this
    rw [this, hp0]
  refine ⟨hkeys, ?_, ?_, ?_, ?_, ?_, by simp, by simp, trivial, by simp,
    fun _ => ⟨by simp, by simp, by simp⟩, ?_, by simp⟩
  · simpa using hseed_sub.nodup hfldnodup
  · intro x hx
    rw [← hkeys]
    exact hseed_sub.subset hx
  · intro T d hd
    simp only [List.map_nil, Dsum_nil]
    simpa using hget_fld T d hd
  · intro T hT
    simp at hT
    exact hmem_seed T hT
  · intro T hT
    have hmem := mem_of_alget hT
    have hfm : (T, 0) ∈ s.first_level_dep.filter (fun p => p.2 == 0) :=
      List.mem_filter.mpr ⟨hmem, by simp⟩
    simp only [List.map_nil, List.nil_append]
    exact List.mem_map.mpr ⟨(T, 0), hfm, rfl⟩
  · intro T hT p hp
    have h0 := hmem_seed T hT
    have hlen := hget_fld T 0 h0
    have : depsOf s.tasks T = [] := List.length_eq_zero.mp hlen.symm
    rw [this] at hp
    simp at hp

/-! ### Consolidated behaviour of `schedule_tasks` on well-formed states -/

theorem scheduleTasks_main {s : TaskScheduler} (hw : WFS s) :
    ∃ order' indeg' time',
      schedLoopTop s = .ok order' ∧
      LoopInv s.tasks [] indeg' order' time' ∧
      order'.length ≤ s.tasks.length ∧
      scheduleTasks s
        = if order'.length < s.tasks.length then .ok (.error ScheduleError.CycleDetected)
          else .ok (.ok order') := by
  obtain ⟨order', indeg', time', heq, hinv⟩ :=
    schedLoop_master s.tasks s.dependents hw.cnt_rel (scheduleFuel s)
      (seedFrontier s.first_level_dep) s.first_level_dep [] 0
      (loopInv_initial hw) (Nat.le_refl _)
  have hnodup : (order'.map (fun e => e.1)).Nodup := by
    simpa using hinv.nodup
  have hsub : (order'.map (fun e => e.1)) ⊆ keysOf s.tasks := by
    intro x hx
    obtain ⟨e, he, hfe⟩ := List.mem_map.mp hx
    obtain ⟨t, ht, _⟩ := hinv.entry_dur e he
    rw [← hfe, ← alget_isSome_iff, ht]
    rfl
  have hle : order'.length ≤ s.tasks.length := by
    have hl := nodup_subset_length hnodup hsub
    simpa [keysOf] using hl
  have heqTop : schedLoopTop s = .ok order' := heq
  refine ⟨order', indeg', time', heqTop, hinv, hle, ?_⟩
  unfold scheduleTasks
  rw [heqTop]
  by_cases hlt : order'.length < s.tasks.length
  · simp [hlt]
  · have heq2 : order'.length = s.tasks.length := by omega
    simp [hlt, heq2]

/-- Completeness: on an acyclic registered graph with no dangling dependency
names, the loop schedules every registered task. -/
theorem complete_of_acyclic {s : TaskScheduler} (hw : WFS s) (hacyc : Acyclic s)
    (hnd : NoDangling s) {order' : List (String × Nat × Nat)}
    {indeg' : List (String × Nat)} {time' : Nat}
    (hinv : LoopInv s.tasks [] indeg' order' time') :
    order'.length = s.tasks.length := by
  classical
  have hnodup : (order'.map (fun e => e.1)).Nodup := by
    simpa using hinv.nodup
  have hsub : (order'.map (fun e => e.1)) ⊆ keysOf s.tasks := by
    intro x hx
    obtain ⟨e, he, hfe⟩ := List.mem_map.mp hx
    obtain ⟨t, ht, _⟩ := hinv.entry_dur e he
    rw [← hfe, ← alget_isSome_iff, ht]
    rfl
  set S := order'.map (fun e => e.1) with hS
  set U := (keysOf s.tasks).filter (fun x => decide (x ∉ S)) with hU
  have hUmem : ∀ T ∈ U, T ∈ keysOf s.tasks ∧ T ∉ S := by
    intro T hT
    have hm := List.mem_filter.mp hT
    exact ⟨hm.1, by simpa using hm.2⟩
  have hUsucc : ∀ T ∈ U, ∃ p ∈ U, DependsOn s T p := by
    intro T hT
    obtain ⟨hTk, hTS⟩ := hUmem T hT
    have hTd : (alget indeg' T).isSome := by
      rw [alget_isSome_iff, hinv.keys_eq]
      exact hTk
    obtain ⟨d, hd⟩ := Option.isSome_iff_exists.mp hTd
    have hdne : d ≠ 0 := by
      intro hd0
      subst hd0
      have hm := hinv.zero_mem T hd
      rw [List.append_nil, ← hS] at hm
      exact hTS hm
    have hdeq := hinv.deg_eq T d hd
    rw [← hS] at hdeq
    have hnotall : ¬ ∀ p ∈ depsOf s.tasks T, p ∈ S := by
      intro hall
      have := (Dsum_eq_len_iff s.tasks T hnodup).mpr hall
      omega
    push_neg at hnotall
    obtain ⟨p, hp, hpS⟩ := hnotall
    have hpk : p ∈ keysOf s.tasks := hnd T hTk p hp
    refine ⟨p, ?_, hTk, hpk, hp⟩
    rw [hU]
    exact List.mem_filter.mpr ⟨hpk, by simpa using hpS⟩
  rcases cycle_of_all_succ (DependsOn s) U.length U (Nat.le_refl _) hUsucc with hUnil | hcyc
  · have hall : ∀ x ∈ keysOf s.tasks, x ∈ S := by
      intro x hx
      by_contra hxS
      have hxU : x ∈ U := by
        rw [hU]
        exact List.mem_filter.mpr ⟨hx, by simpa using hxS⟩
      rw [hUnil] at hxU
      simp at hxU
    have hge : (keysOf s.tasks).length ≤ S.length :=
      nodup_subset_length hw.keys_nodup hall
    have hle2 : S.length ≤ (keysOf s.tasks).length := nodup_subset_length hnodup hsub
    have hlenS : S.length = order'.length := by simp [hS]
    have hlenK : (keysOf s.tasks).length = s.tasks.length := by simp [keysOf]
    omega
  · obtain ⟨T, hT⟩ := hcyc
    exact absurd hT (hacyc T)

/-- Soundness: if the loop scheduled every registered task, the registered
graph has no cycle. -/
theorem no_cycle_of_complete {s : TaskScheduler} (hw : WFS s)
    {order' : List (String × Nat × Nat)} {indeg' : List (String × Nat)} {time' : Nat}
    (hinv : LoopInv s.tasks [] indeg' order' time')
    (hlen : order'.length = s.tasks.length) : ¬ HasCycle s := by
  rintro ⟨T0, htg⟩
  have hnodup : (order'.map (fun e => e.1)).Nodup := by
    simpa using hinv.nodup
  have hsub : (order'.map (fun e => e.1)) ⊆ keysOf s.tasks := by
    intro x hx
    obtain ⟨e, he, hfe⟩ := List.mem_map.mp hx
    obtain ⟨t, ht, _⟩ := hinv.entry_dur e he
    rw [← hfe, ← alget_isSome_iff, ht]
    rfl
  set S := order'.map (fun e => e.1) with hS
  have hperm : S.Perm (keysOf s.tasks) := by
    refine perm_of_nodup_subset_length hnodup hsub ?_
    have hlenS : S.length = order'.length := by simp [hS]
    have hlenK : (keysOf s.tasks).length = s.tasks.length := by simp [keysOf]
    omega
  have hallS : ∀ x ∈ keysOf s.tasks, x ∈ S := fun x hx => hperm.mem_iff.mpr hx
  have hstepidx : ∀ a b, DependsOn s a b → idxOf b S < idxOf a S := by
    rintro a b ⟨ha, _, hdep⟩
    have haS : a ∈ S := hallS a ha
    obtain ⟨e, he, hfe⟩ := List.mem_map.mp haS
    have hidx := hinv.idx_lt e he b (by rw [hfe]; exact hdep)
    rw [← hS] at hidx
    rw [← hfe]
    exact hidx
  have hdesc : ∀ a b, Relation.TransGen (DependsOn s) a b → idxOf b S < idxOf a S := by
    intro a b htg2
    induction htg2 with
    | single h => exact hstepidx _ _ h
    | tail _ h ih => exact lt_trans (hstepidx _ _ h) ih
  exact absurd (hdesc T0 T0 htg) (lt_irrefl _)

theorem loopInv_names_nodup {ts : List (String × Task)} {F : List String}
    {indeg : List (String × Nat)} {order : List (String × Nat × Nat)} {time : Nat}
    (hinv : LoopInv ts F indeg order time) :
    (order.map (fun e => e.1)).Nodup :=
  hinv.nodup.of_append_left

theorem loopInv_names_sub {ts : List (String × Task)} {F : List String}
    {indeg : List (String × Nat)} {order : List (String × Nat × Nat)} {time : Nat}
    (hinv : LoopInv ts F indeg order time) :
    (order.map (fun e => e.1)) ⊆ keysOf ts := by
  intro x hx
  obtain ⟨e, he, hfe⟩ := List.mem_map.mp hx
  obtain ⟨t, ht, _⟩ := hinv.entry_dur e he
  rw [← hfe, ← alget_isSome_iff, ht]
  rfl

theorem loopInv_perm {s : TaskScheduler} {order' : List (String × Nat × Nat)}
    {indeg' : List (String × Nat)} {time' : Nat}
    (hinv : LoopInv s.tasks [] indeg' order' time')
    (hlen : order'.length = s.tasks.length) :
    (order'.map (fun e => e.1)).Perm (keysOf s.tasks) := by
  refine perm_of_nodup_subset_length (loopInv_names_nodup hinv)
    (loopInv_names_sub hinv) ?_
  simp [keysOf]
  omega

theorem sum_durs_eq {s : TaskScheduler} (hw : WFS s)
    {order' : List (String × Nat × Nat)} {indeg' : List (String × Nat)} {time' : Nat}
    (hinv : LoopInv s.tasks [] indeg' order' time')
    (hlen : order'.length = s.tasks.length) :
    (order'.map (fun e => e.2.2)).sum = (s.tasks.map (fun p => p.2.duration)).sum := by
  have hstep1 : order'.map (fun e => e.2.2)
      = (order'.map (fun e => e.1)).map (durOf s.tasks) := by
    rw [List.map_map]
    refine List.map_congr_left ?_
    intro e he
    obtain ⟨t, ht, hdur⟩ := hinv.entry_dur e he
    simp [Function.comp, durOf, ht, hdur]
  have hstep3 : (keysOf s.tasks).map (durOf s.tasks)
      = s.tasks.map (fun p => p.2.duration) := by
    rw [keysOf, List.map_map]
    refine List.map_congr_left ?_
    intro p hp
    have hget : alget s.tasks p.1 = some p.2 :=
      alget_of_mem_nodup hw.keys_nodup (by simpa using hp)
    simp [Function.comp, durOf, hget]
  rw [hstep1, ← hstep3]
  exact ((loopInv_perm hinv hlen).map (durOf s.tasks)).sum_eq

/-! ### The state-threaded variant used for the mutation/idempotence claim -/

theorem schedLoopSt_cons_succ (s : TaskScheduler) (fuel : Nat) (q : String)
    (rest : List String) (indeg : List (String × Nat))
    (order : List (String × Nat × Nat)) (time : Nat) :
    schedLoopSt s (fuel + 1) (q :: rest) indeg order time
      = match alget s.tasks q with
        | none => schedLoopSt s fuel rest indeg order time
        | some task =>
          match processNeighbors (algetD s.dependents q []) indeg rest with
          | .error e => (.error e, s)
          | .ok (indeg', frontier') =>
            schedLoopSt s fuel frontier' indeg'
              (order ++ [(q, time, task.duration)])
              ((time + task.duration) % u32Mod) := rfl

theorem schedLoopSt_eq (s : TaskScheduler) :
    ∀ (fuel : Nat) (F : List String) (indeg : List (String × Nat))
      (order : List (String × Nat × Nat)) (time : Nat),
      schedLoopSt s fuel F indeg order time
        = (schedLoop s.tasks s.dependents fuel F indeg order time, s) := by
  intro fuel
  induction fuel with
  | zero =>
    intro F indeg order time
    cases F with
    | nil => rfl
    | cons q rest => rfl
  | succ fuel ih =>
    intro F indeg order time
    cases F with
    | nil => rfl
    | cons q rest =>
      rw [schedLoopSt_cons_succ, schedLoop_cons_succ]
      cases htask : alget s.tasks q with
      | none => exact ih rest indeg order time
      | some task =>
        cases hpn : processNeighbors (algetD s.dependents q []) indeg rest with
        | error e => rfl
        | ok pr =>
          obtain ⟨indeg1, frontier1⟩ := pr
          exact ih frontier1 indeg1 (order ++ [(q, time, task.duration)])
            ((time + task.duration) % u32Mod)

theorem scheduleTasksSt_eq (s : TaskScheduler) :
    scheduleTasksSt s = (scheduleTasks s, s) := by
  unfold scheduleTasksSt scheduleTasks schedLoopTop
  rw [schedLoopSt_eq]
  cases schedLoop s.tasks s.dependents (scheduleFuel s) (seedFrontier s.first_level_dep)
      s.first_level_dep [] 0 with
  | error e => rfl
  | ok order =>
    by_cases h1 : order.length < s.tasks.length
    · simp [h1]
    · by_cases h2 : order.length = s.tasks.length <;> simp [h1, h2]

/-! ### The claims -/

/-- C1 fails as stated: the `u32` clock `time += task.duration` wraps at
API-reachable inputs.  With A and C of duration `2 ^ 31` and B depending on
A (an acyclic graph with no dangling names), the call returns `Ok` but B's
start offset is the wrapped value 0, strictly below A's start plus duration
`2 ^ 31`. -/
theorem c1_counterexample :
    Reachable wrapSched ∧ Acyclic wrapSched ∧ NoDangling wrapSched ∧
    scheduleTasks wrapSched
      = .ok (.ok [("A", 0, 2 ^ 31), ("C", 2 ^ 31, 2 ^ 31), ("B", 0, 1)]) ∧
    ¬ ∃ e2, e2 ∈ ([("A", 0, 2 ^ 31), ("C", 2 ^ 31, 2 ^ 31), ("B", 0, 1)] :
          List (String × Nat × Nat)) ∧
        e2.1 = "A" ∧ e2.2.1 + e2.2.2 ≤ 0 := by
  refine ⟨⟨wrapOps, rfl⟩, ?_, by decide, rfl, by decide⟩
  exact acyclic_of_rank wrapSched (fun n => if n = "B" then 1 else 0) (by decide)

/-- C1 (amended): for every scheduler (built through the public API) whose
registered dependency graph is acyclic and all of whose declared dependency
names are themselves registered tasks, `schedule_tasks` returns `Ok` with
exactly one entry per registered task; and whenever the sum of all
registered durations fits in `u32` (so the clock cannot wrap), every entry's
start offset is at least the start offset plus duration of each of its
direct dependencies. -/
theorem c1_amended_no_overflow (s : TaskScheduler) (hreach : Reachable s)
    (hacyc : Acyclic s) (hnd : NoDangling s) :
    ∃ order, scheduleTasks s = .ok (.ok order) ∧
      (order.map (fun e => e.1)).Perm (keysOf s.tasks) ∧
      ((s.tasks.map (fun p => p.2.duration)).sum < u32Mod →
        ∀ e ∈ order, ∀ p ∈ depsOf s.tasks e.1,
          ∃ e2, e2 ∈ order ∧ e2.1 = p ∧ e2.2.1 + e2.2.2 ≤ e.2.1) := by
  have hw := wfs_of_reachable hreach
  obtain ⟨order', indeg', time', heqTop, hinv, hle, hres⟩ := scheduleTasks_main hw
  have hlen := complete_of_acyclic hw hacyc hnd hinv
  refine ⟨order', ?_, loopInv_perm hinv hlen, ?_⟩
  · rw [hres, if_neg (by omega)]
  · intro hsum
    have hsum' : (order'.map (fun e => e.2.2)).sum < u32Mod := by
      rw [sum_durs_eq hw hinv hlen]
      exact hsum
    exact (hinv.nowrap hsum').2.2

theorem c1_witness :
    Reachable diamondSched ∧ Acyclic diamondSched ∧ NoDangling diamondSched ∧
      ∃ order, scheduleTasks diamondSched = .ok (.ok order) ∧
        (order.map (fun e => e.1)).Perm (keysOf diamondSched.tasks) ∧
        ((diamondSched.tasks.map (fun p => p.2.duration)).sum < u32Mod →
          ∀ e ∈ order, ∀ p ∈ depsOf diamondSched.tasks e.1,
            ∃ e2, e2 ∈ order ∧ e2.1 = p ∧ e2.2.1 + e2.2.2 ≤ e.2.1) := by
  have hreach : Reachable diamondSched := ⟨diamondOps, rfl⟩
  have hacyc : Acyclic diamondSched := by
    refine acyclic_of_rank diamondSched
      (fun n => if n = "A" then 0 else if n = "D" then 2 else 1) ?_
    decide
  have hnd : NoDangling diamondSched := by decide
  exact ⟨hreach, hacyc, hnd,
    c1_amended_no_overflow diamondSched hreach hacyc hnd⟩

/-- C2: for every scheduler (built through the public API) whose registered
dependency graph contains a cycle, `schedule_tasks` returns
`Err(CycleDetected)`, so no `Ok` sequence (in particular no subset of the
tasks) is ever exposed. -/
theorem c2_cycle_detected (s : TaskScheduler) (hreach : Reachable s)
    (hcyc : HasCycle s) :
    scheduleTasks s = .ok (.error ScheduleError.CycleDetected) := by
  have hw := wfs_of_reachable hreach
  obtain ⟨order', indeg', time', heqTop, hinv, hle, hres⟩ := scheduleTasks_main hw
  have hne : order'.length ≠ s.tasks.length := fun hlen =>
    (no_cycle_of_complete hw hinv hlen) hcyc
  rw [hres, if_pos (by omega)]

theorem c2_witness :
    Reachable cycleSched ∧ HasCycle cycleSched ∧
      scheduleTasks cycleSched = .ok (.error ScheduleError.CycleDetected) := by
  have hreach : Reachable cycleSched := ⟨cycleOps, rfl⟩
  have hAB : DependsOn cycleSched "A" "B" := by
    refine ⟨?_, ?_, ?_⟩ <;> decide
  have hBC : DependsOn cycleSched "B" "C" := by
    refine ⟨?_, ?_, ?_⟩ <;> decide
  have hCA : DependsOn cycleSched "C" "A" := by
    refine ⟨?_, ?_, ?_⟩ <;> decide
  have hcyc : HasCycle cycleSched :=
    ⟨"A", Relation.TransGen.head hAB
      (Relation.TransGen.head hBC (Relation.TransGen.single hCA))⟩
  exact ⟨hreach, hcyc, c2_cycle_detected cycleSched hreach hcyc⟩

/-- C3 fails as stated: registering C before B in the diamond yields the
order A, C, B, D with offsets (0, 3, 4, 6), not A, B, C, D with
(0, 3, 5, 6); the output does depend on the registration order. -/
theorem c3_counterexample :
    (buildScheduler diamondOpsCB).map scheduleTasks
      = some (.ok (.ok [("A", 0, 3), ("C", 3, 1), ("B", 4, 2), ("D", 6, 4)])) ∧
    (buildScheduler diamondOpsCB).map scheduleTasks
      ≠ some (.ok (.ok [("A", 0, 3), ("B", 3, 2), ("C", 5, 1), ("D", 6, 4)])) := by
  constructor
  · rfl
  · decide

/-- C3 (amended): for every registration order of the four diamond tasks in
which B is registered before C, `schedule_tasks` returns the order
A, B, C, D with start offsets (0, 3, 5, 6). -/
theorem c3_amended_diamond (ops : List (String × List String × Nat))
    (hperm : ops.Perm diamondOps) (hbc : regBefore ops "B" "C") :
    (buildScheduler ops).map scheduleTasks
      = some (.ok (.ok [("A", 0, 3), ("B", 3, 2), ("C", 5, 1), ("D", 6, 4)])) := by
  have hmem : ops ∈ diamondOps.permutations' := List.mem_permutations'.mpr hperm
  have hdec : ∀ l ∈ diamondOps.permutations', regBefore l "B" "C" →
      (buildScheduler l).map scheduleTasks
        = some (.ok (.ok [("A", 0, 3), ("B", 3, 2), ("C", 5, 1), ("D", 6, 4)])) := by
    decide
  exact hdec ops hmem hbc

theorem c3_amended_witness :
    diamondOps.Perm diamondOps ∧ regBefore diamondOps "B" "C" ∧
      (buildScheduler diamondOps).map scheduleTasks
        = some (.ok (.ok [("A", 0, 3), ("B", 3, 2), ("C", 5, 1), ("D", 6, 4)])) :=
  ⟨List.Perm.refl diamondOps, by decide,
    c3_amended_diamond diamondOps (List.Perm.refl diamondOps) (by decide)⟩

/-- C4 fails as stated: with a single task T depending on a never-registered
name X (an acyclic graph), `schedule_tasks` does not succeed — it returns
`Err(CycleDetected)`. -/
theorem c4_counterexample :
    (buildScheduler danglingOps).map scheduleTasks
      = some (.ok (.error ScheduleError.CycleDetected)) := rfl

/-- C4 (amended): a dangling dependency edge is never reported as its own
error, but it is not ignored either — the dependent task never reaches
in-degree 0, so any scheduler (built through the public API) with a dangling
dependency name gets `Err(CycleDetected)`, even when the graph is acyclic. -/
theorem c4_amended_dangling (s : TaskScheduler) (hreach : Reachable s)
    (hdangle : ∃ T ∈ keysOf s.tasks, ∃ p ∈ depsOf s.tasks T, p ∉ keysOf s.tasks) :
    scheduleTasks s = .ok (.error ScheduleError.CycleDetected) := by
  have hw := wfs_of_reachable hreach
  obtain ⟨order', indeg', time', heqTop, hinv, hle, hres⟩ := scheduleTasks_main hw
  obtain ⟨T, hTk, p, hp, hpk⟩ := hdangle
  have hTnot : T ∉ order'.map (fun e => e.1) := by
    intro hTS
    obtain ⟨e, he, hfe⟩ := List.mem_map.mp hTS
    have hpS := hinv.deps_sched e he p (by rw [hfe]; exact hp)
    exact hpk (loopInv_names_sub hinv hpS)
  have hlt : order'.length < s.tasks.length := by
    by_contra hge
    have hlen : order'.length = s.tasks.length := by omega
    exact hTnot ((loopInv_perm hinv hlen).mem_iff.mpr hTk)
  rw [hres, if_pos hlt]

theorem c4_amended_witness :
    Reachable danglingSched ∧
      (∃ T ∈ keysOf danglingSched.tasks, ∃ p ∈ depsOf danglingSched.tasks T,
        p ∉ keysOf danglingSched.tasks) ∧
      scheduleTasks danglingSched = .ok (.error ScheduleError.CycleDetected) := by
  have hreach : Reachable danglingSched := ⟨danglingOps, rfl⟩
  have hdangle : ∃ T ∈ keysOf danglingSched.tasks,
      ∃ p ∈ depsOf danglingSched.tasks T, p ∉ keysOf danglingSched.tasks := by
    refine ⟨"T", by decide, "X", by decide, by decide⟩
  exact ⟨hreach, hdangle, c4_amended_dangling danglingSched hreach hdangle⟩

/-- C5 fails as stated: three tasks of duration `2 ^ 31` get start offsets
0, `2 ^ 31`, 0 under the wrapping `u32` clock, so the Ok sequence is not
monotonically non-decreasing and the last entry's start plus duration
differs from the sum of all durations. -/
theorem c5_counterexample :
    Reachable wrap3Sched ∧
    scheduleTasks wrap3Sched
      = .ok (.ok [("A", 0, 2 ^ 31), ("B", 2 ^ 31, 2 ^ 31), ("C", 0, 2 ^ 31)]) ∧
    ¬ ([("A", 0, 2 ^ 31), ("B", 2 ^ 31, 2 ^ 31), ("C", 0, 2 ^ 31)] :
        List (String × Nat × Nat)).Pairwise (fun a b => a.2.1 ≤ b.2.1) ∧
    ∀ e, ([("A", 0, 2 ^ 31), ("B", 2 ^ 31, 2 ^ 31), ("C", 0, 2 ^ 31)] :
        List (String × Nat × Nat)).getLast? = some e →
      e.2.1 + e.2.2 ≠ (wrap3Sched.tasks.map (fun p => p.2.duration)).sum := by
  refine ⟨⟨wrap3Ops, rfl⟩, rfl, ?_, ?_⟩
  · intro h
    rw [List.pairwise_cons] at h
    obtain ⟨-, h⟩ := h
    rw [List.pairwise_cons] at h
    obtain ⟨hB, -⟩ := h
    have hle := hB ("C", 0, 2 ^ 31) (by simp)
    exact absurd hle (by norm_num)
  · intro e he
    rw [show ([("A", 0, 2 ^ 31), ("B", 2 ^ 31, 2 ^ 31), ("C", 0, 2 ^ 31)] :
        List (String × Nat × Nat)).getLast? = some ("C", 0, 2 ^ 31) from rfl] at he
    injection he with he
    subst he
    decide

/-- C5 (amended): whenever `schedule_tasks` (on a scheduler built through
the public API) returns `Ok`, the last entry's start offset plus duration
equals the sum of all registered durations modulo `2 ^ 32`; and when that
sum fits in `u32` (so the clock cannot wrap), the start offsets are
monotonically non-decreasing and the last entry's start plus duration equals
the sum exactly. -/
theorem c5_amended_no_overflow (s : TaskScheduler) (order : List (String × Nat × Nat))
    (hreach : Reachable s) (hok : scheduleTasks s = .ok (.ok order)) :
    (∀ e, order.getLast? = some e →
      (e.2.1 + e.2.2) % u32Mod
        = (s.tasks.map (fun p => p.2.duration)).sum % u32Mod) ∧
    ((s.tasks.map (fun p => p.2.duration)).sum < u32Mod →
      order.Pairwise (fun a b => a.2.1 ≤ b.2.1) ∧
      ∀ e, order.getLast? = some e →
        e.2.1 + e.2.2 = (s.tasks.map (fun p => p.2.duration)).sum) := by
  have hw := wfs_of_reachable hreach
  obtain ⟨order', indeg', time', heqTop, hinv, hle, hres⟩ := scheduleTasks_main hw
  rw [hres] at hok
  by_cases hlt : order'.length < s.tasks.length
  · rw [if_pos hlt] at hok
    injection hok with hok
    exact absurd hok (by simp)
  · rw [if_neg hlt] at hok
    injection hok with hok
    injection hok with hok
    subst hok
    have hlen : order'.length = s.tasks.length := by omega
    have hsum_eq := sum_durs_eq hw hinv hlen
    constructor
    · intro e hlast
      have hmod := timedFromW_getLast hinv.timed hlast
      rw [hmod, Nat.zero_add, hsum_eq]
    · intro hsum
      have hsum' : (order'.map (fun e => e.2.2)).sum < u32Mod := by
        rw [hsum_eq]
        exact hsum
      have htf : TimedFrom 0 order' :=
        timedFromW_to_timedFrom hinv.timed (by simpa using hsum')
      refine ⟨timedFrom_pairwise htf, ?_⟩
      intro e hlast
      have hfin := timedFrom_getLast htf hlast
      rw [hfin, Nat.zero_add, hsum_eq]

theorem c5_witness :
    Reachable diamondSched ∧
      scheduleTasks diamondSched
        = .ok (.ok [("A", 0, 3), ("B", 3, 2), ("C", 5, 1), ("D", 6, 4)]) ∧
      (∀ e, ([("A", 0, 3), ("B", 3, 2), ("C", 5, 1), ("D", 6, 4)] :
          List (String × Nat × Nat)).getLast? = some e →
        (e.2.1 + e.2.2) % u32Mod
          = (diamondSched.tasks.map (fun p => p.2.duration)).sum % u32Mod) ∧
      ((diamondSched.tasks.map (fun p => p.2.duration)).sum < u32Mod →
        ([("A", 0, 3), ("B", 3, 2), ("C", 5, 1), ("D", 6, 4)] :
            List (String × Nat × Nat)).Pairwise (fun a b => a.2.1 ≤ b.2.1) ∧
        ∀ e, ([("A", 0, 3), ("B", 3, 2), ("C", 5, 1), ("D", 6, 4)] :
            List (String × Nat × Nat)).getLast? = some e →
          e.2.1 + e.2.2 = (diamondSched.tasks.map (fun p => p.2.duration)).sum) := by
  have hreach : Reachable diamondSched := ⟨diamondOps, rfl⟩
  have hok : scheduleTasks diamondSched
      = .ok (.ok [("A", 0, 3), ("B", 3, 2), ("C", 5, 1), ("D", 6, 4)]) := rfl
  obtain ⟨h1, h2⟩ := c5_amended_no_overflow diamondSched _ hreach hok
  exact ⟨hreach, hok, h1, h2⟩

/-- C6: `schedule_tasks` leaves the stored scheduler state unchanged, and a
second call on the unchanged scheduler returns the same result. -/
theorem c6_no_mutation_idempotent (s : TaskScheduler) :
    (scheduleTasksSt s).2 = s ∧
    (scheduleTasksSt ((scheduleTasksSt s).2)).1 = (scheduleTasksSt s).1 := by
  rw [scheduleTasksSt_eq]
  simp [scheduleTasksSt_eq]

/-- C7: `add_task` aborts (the modelled `panic!`) exactly when the name is
already registered; otherwise it registers the task, records the length of
the dependency list as the initial in-degree, leaves other tasks unchanged,
and appends the new name to the reverse-adjacency list of each dependency
(once per occurrence, creating the list if absent). -/
theorem c7_addTask_contract (s : TaskScheduler) (name : String)
    (deps : List String) (dur : Nat) :
    (addTask s name deps dur = none ↔ name ∈ keysOf s.tasks) ∧
    ∀ s', addTask s name deps dur = some s' →
      alget s'.tasks name = some ⟨name, deps, dur⟩ ∧
      alget s'.first_level_dep name = some deps.length ∧
      (∀ m, m ≠ name → alget s'.tasks m = alget s.tasks m) ∧
      (∀ d, algetD s'.dependents d []
        = algetD s.dependents d [] ++ List.replicate (cnt d deps) name) := by
  constructor
  · unfold addTask
    by_cases hex : (alget s.tasks name).isSome
    · simp [hex]
      exact (alget_isSome_iff _ _).mp hex
    · simp [hex]
      rw [← alget_isSome_iff]
      exact fun h => hex h
  · intro s' hs'
    unfold addTask at hs'
    by_cases hex : (alget s.tasks name).isSome
    · simp [hex] at hs'
    · simp [hex] at hs'
      subst hs'
      refine ⟨alget_alinsert_self _ _ _, alget_alinsert_self _ _ _, ?_, ?_⟩
      · intro m hm
        exact alget_alinsert_ne _ _ _ _ hm
      · intro d
        exact algetD_foldl_alpush name deps s.dependents d

theorem c7_witness :
    (addTask TaskScheduler.new "A" ["B"] 2 = none
      ↔ "A" ∈ keysOf TaskScheduler.new.tasks) ∧
    alget schedA.tasks "A" = some ⟨"A", ["B"], 2⟩ ∧
    alget schedA.first_level_dep "A" = some 1 ∧
    alget schedA.tasks "Z" = alget TaskScheduler.new.tasks "Z" ∧
    algetD schedA.dependents "B" []
      = algetD TaskScheduler.new.dependents "B" [] ++ List.replicate (cnt "B" ["B"]) "A" :=
  ⟨(c7_addTask_contract TaskScheduler.new "A" ["B"] 2).1,
   ((c7_addTask_contract TaskScheduler.new "A" ["B"] 2).2 schedA rfl).1,
   ((c7_addTask_contract TaskScheduler.new "A" ["B"] 2).2 schedA rfl).2.1,
   ((c7_addTask_contract TaskScheduler.new "A" ["B"] 2).2 schedA rfl).2.2.1 "Z"
     (by decide),
   ((c7_addTask_contract TaskScheduler.new "A" ["B"] 2).2 schedA rfl).2.2.2 "B"⟩

/-- C8: on every scheduler built through the public API the loop never
accumulates more entries than there are registered tasks, so the
`Ordering::Greater` arm with `unreachable!()` is never taken. -/
theorem c8_no_overrun (s : TaskScheduler) (hreach : Reachable s) :
    (∀ order', schedLoopTop s = .ok order' → order'.length ≤ s.tasks.length) ∧
    scheduleTasks s ≠ .error RustAbort.unreachableHit := by
  have hw := wfs_of_reachable hreach
  obtain ⟨order0, indeg', time', heqTop, hinv, hle, hres⟩ := scheduleTasks_main hw
  constructor
  · intro order' h
    rw [heqTop] at h
    injection h with h
    exact h ▸ hle
  · rw [hres]
    by_cases hlt : order0.length < s.tasks.length <;> simp [hlt]

theorem c8_witness :
    Reachable diamondSched ∧
      scheduleTasks diamondSched ≠ .error RustAbort.unreachableHit :=
  ⟨⟨diamondOps, rfl⟩, (c8_no_overrun diamondSched ⟨diamondOps, rfl⟩).2⟩

/-- C9: on every scheduler built through the public API the in-degree
decrement `*degree -= 1` is only applied to strictly positive degrees —
the modelled underflow abort never occurs. -/
theorem c9_no_underflow (s : TaskScheduler) (hreach : Reachable s) :
    scheduleTasks s ≠ .error RustAbort.underflow := by
  have hw := wfs_of_reachable hreach
  obtain ⟨order0, indeg', time', heqTop, hinv, hle, hres⟩ := scheduleTasks_main hw
  rw [hres]
  by_cases hlt : order0.length < s.tasks.length <;> simp [hlt]

theorem c9_witness :
    Reachable diamondSched ∧ scheduleTasks diamondSched ≠ .error RustAbort.underflow :=
  ⟨⟨diamondOps, rfl⟩, c9_no_underflow diamondSched ⟨diamondOps, rfl⟩⟩

/-- C10: on every scheduler built through the public API, `schedule_tasks`
never produces the `NoTaskFound` error variant, and a freshly constructed
empty scheduler yields `Ok` of the empty sequence. -/
theorem c10_no_NoTaskFound (s : TaskScheduler) (hreach : Reachable s) :
    scheduleTasks s ≠ .ok (.error ScheduleError.NoTaskFound) ∧
    scheduleTasks TaskScheduler.new = .ok (.ok []) := by
  have hw := wfs_of_reachable hreach
  obtain ⟨order0, indeg', time', heqTop, hinv, hle, hres⟩ := scheduleTasks_main hw
  refine ⟨?_, rfl⟩
  rw [hres]
  by_cases hlt : order0.length < s.tasks.length <;> simp [hlt]

theorem c10_witness :
    Reachable cycleSched ∧
      scheduleTasks cycleSched ≠ .ok (.error ScheduleError.NoTaskFound) :=
  ⟨⟨cycleOps, rfl⟩, (c10_no_NoTaskFound cycleSched ⟨cycleOps, rfl⟩).1⟩

end MoAssign
